import Mathlib

/-!
Verification of the tree-encoding core of `biokb_taxtree`.

The Python source keeps the taxonomy as a flat edge list (one row per taxon,
`(tax_id, parent_tax_id)`), groups it into a parent → children dictionary,
traverses it depth-first from the root taxon (tax id 1) assigning preorder
`tree_id`s, and then assigns each node a `right_tree_id` so that the subtree
of a node is exactly the half-open interval `[tree_id, right_tree_id)`.
The REST layer answers sibling and descendant queries over the stored rows.

This file embeds those functions (from `db/importer.py`, `db/manager.py` and
`api/main.py`) as executable Lean definitions and proves the specification
claims about them.  Python's unbounded call recursion is modelled with an
explicit fuel parameter; Python `dict`s are modelled as association lists
with insertion-order semantics (`dictInsert` replaces in place, preserving
the position of an existing key, exactly as CPython dicts do); exceptions are
modelled with `Except`.
-/

namespace TaxTree

/-- The `TreeEntry` dataclass of `db/importer.py` (identical in `db/manager.py`). -/
structure TreeEntry where
  tree_id : Nat
  tree_parent_id : Option Nat
  tax_id : Nat
  level : Nat
  right_tree_id : Option Nat := none
  is_leaf : Bool := false
deriving Repr, DecidableEq

/-- Errors the Python pipeline can raise (or, for `fuelExhausted`, the marker
that the modelled recursion did not terminate within the given fuel). -/
inductive EncError where
  | keyError
  | valueError
  | fuelExhausted
  | maxOfEmpty
  | missingParent
deriving Repr, DecidableEq

/-- The parent → children dictionary (`pc_dict` in the source). -/
abbrev PcDict := List (Nat × List Nat)

/-- First value stored under key `k`, if any. -/
def pcFind (pcd : PcDict) (k : Nat) : Option (List Nat) :=
  match pcd with
  | [] => none
  | (k', v) :: rest => if k' = k then some v else pcFind rest k

/-- Dictionary access with the `defaultdict(list)` / `dict.get(k, [])` default. -/
def pcGet (pcd : PcDict) (k : Nat) : List Nat :=
  (pcFind pcd k).getD []

/-- Python's `k in pc_dict`. -/
def pcMem (pcd : PcDict) (k : Nat) : Bool :=
  (pcFind pcd k).isSome

/-- Append `t` to the group of key `p`, creating the group at the end if absent.
This is the per-row step of `groupby(...).apply(list)` (values kept in row
order) and also of appending to a `defaultdict(list)`. -/
def addChild (pcd : PcDict) (p t : Nat) : PcDict :=
  match pcd with
  | [] => [(p, [t])]
  | (k, cs) :: rest =>
      if k = p then (k, cs ++ [t]) :: rest else (k, cs) :: addChild rest p t

/-- `df_nodes[["tax_id","parent_tax_id"]].groupby("parent_tax_id")["tax_id"].apply(list)`:
group the `tax_id`s by `parent_tax_id`, keeping row order inside each group.
(The key order pandas produces is sorted; since the dictionary is only ever
read by key lookup, the key order is irrelevant and first-seen order is used.)
Rows are `(tax_id, parent_tax_id)` pairs. -/
def groupByParent (edges : List (Nat × Nat)) : PcDict :=
  edges.foldl (fun acc e => addChild acc e.snd e.fst) []

/-- Python's `list.remove`: drop the first occurrence. -/
def removeFirst (xs : List Nat) (x : Nat) : List Nat :=
  match xs with
  | [] => []
  | y :: ys => if y = x then ys else y :: removeFirst ys x

/-- Replace the value stored under key `k` (no-op if absent). -/
def pcdSet (pcd : PcDict) (k : Nat) (v : List Nat) : PcDict :=
  match pcd with
  | [] => []
  | (k', v') :: rest =>
      if k' = k then (k, v) :: rest else (k', v') :: pcdSet rest k v

/-- `DbImporter.__get_parent_child_dict` (identical in `DbManager`): group the
edge rows by parent, then `pc_dict[1].remove(1)` — a `KeyError` if there is no
group for parent 1, a `ValueError` if that group does not contain 1. -/
def getParentChildDict (edges : List (Nat × Nat)) : Except EncError PcDict :=
  let pcd := groupByParent edges
  match pcFind pcd 1 with
  | none => .error .keyError
  | some cs =>
      if 1 ∈ cs then .ok (pcdSet pcd 1 (removeFirst cs 1))
      else .error .valueError

/-- The `tree` dictionary: `tree_id → TreeEntry`, in insertion order. -/
abbrev TreeMap := List (Nat × TreeEntry)

/-- CPython `dict` assignment `m[k] = e`: replace in place if `k` is present
(keeping its position), otherwise append at the end. -/
def dictInsert (m : TreeMap) (k : Nat) (e : TreeEntry) : TreeMap :=
  match m with
  | [] => [(k, e)]
  | (k', e') :: rest =>
      if k' = k then (k, e) :: rest else (k', e') :: dictInsert rest k e

/-- Python `m[k]` read (first entry with key `k`). -/
def mapFind (m : TreeMap) (k : Nat) : Option TreeEntry :=
  match m with
  | [] => none
  | (k', e) :: rest => if k' = k then some e else mapFind rest k

/-- The `TreeEntry(tree_id=…, tree_parent_id=…, tax_id=…, level=…, is_leaf=…)`
constructor call of `__get_tree` (`right_tree_id` defaults to `None`). -/
def mkEntry (tid : Nat) (pid : Option Nat) (tax lvl : Nat) (leaf : Bool) :
    TreeEntry :=
  { tree_id := tid, tree_parent_id := pid, tax_id := tax, level := lvl,
    right_tree_id := none, is_leaf := leaf }

mutual

/-- `DbImporter.__get_tree` (identical in `DbManager.__get_tree`): insert the
prebuilt entry, then recurse into `pc_dict.get(tax_id, [])` in order, threading
the last used `tree_id`.  `fuel` bounds the call-nesting depth (Python has no
such bound; running out of fuel models the unbounded recursion descending
forever). -/
def getTree (fuel : Nat) (tree_entry : TreeEntry) (pcd : PcDict)
    (level tree_id : Nat) (tree : TreeMap) : Except EncError (TreeMap × Nat) :=
  match fuel with
  | 0 => .error .fuelExhausted
  | Nat.succ f =>
      getTreeChildren f (pcGet pcd tree_entry.tax_id) tree_entry pcd
        (level + 1) tree_id (dictInsert tree tree_entry.tree_id tree_entry)
termination_by (fuel, 0)

/-- The `for child_tax_id in children` loop of `__get_tree`. -/
def getTreeChildren (fuel : Nat) (children : List Nat) (parent : TreeEntry)
    (pcd : PcDict) (level tree_id : Nat) (tree : TreeMap) :
    Except EncError (TreeMap × Nat) :=
  match children with
  | [] => .ok (tree, tree_id)
  | c :: cs =>
      match getTree fuel
          (mkEntry (tree_id + 1) (some parent.tree_id) c level (!(pcMem pcd c)))
          pcd level (tree_id + 1) tree with
      | .error er => .error er
      | .ok (tree2, tid2) => getTreeChildren fuel cs parent pcd level tid2 tree2
termination_by (fuel, children.length + 1)

end

/-- Python truthiness of `e.tree_parent_id` (`None` and `0` are falsy). -/
def truthyParent (e : TreeEntry) : Bool :=
  e.tree_parent_id.getD 0 != 0

/-- The `tree_pc_dict` built at the top of `__set_right_tree_ids`: group the
child tree ids by parent tree id, in dictionary iteration order, skipping
entries whose `tree_parent_id` is falsy. -/
def treePcDict (tree : TreeMap) : PcDict :=
  tree.foldl
    (fun acc p =>
      if truthyParent p.snd then addChild acc (p.snd.tree_parent_id.getD 0) p.fst
      else acc) []

/-- The keys of `tree_cp_dict`: the tree ids whose entry has a truthy parent. -/
def cpKeys (tree : TreeMap) : List Nat :=
  (tree.filter (fun p => truthyParent p.snd)).map Prod.fst

/-- Python `max` over a list (`ValueError`, i.e. `none`, on an empty list). -/
def listMax? (xs : List Nat) : Option Nat :=
  match xs with
  | [] => none
  | x :: rest =>
      some (match listMax? rest with
            | none => x
            | some m => max x m)

/-- Python `min` over the nonempty list `x :: xs`. -/
def listMin1 (x : Nat) (xs : List Nat) : Nat :=
  xs.foldl min x

/-- One iteration of the `for tree_id, e in tree.items()` loop of
`DbImporter.__set_right_tree_ids`, reading and updating the current map. -/
def setRightStep (pcdT : PcDict) (maxId : Nat) (tree : TreeMap)
    (k : Nat) (e : TreeEntry) : Except EncError TreeMap :=
  if k = 1 then
    .ok (dictInsert tree k { e with right_tree_id := some (maxId + 1) })
  else if e.tree_parent_id ≠ none then
    let sibs := (pcGet pcdT (e.tree_parent_id.getD 0)).filter (fun x => k < x)
    match sibs with
    | s :: ss =>
        .ok (dictInsert tree k { e with right_tree_id := some (listMin1 s ss) })
    | [] =>
        match mapFind tree (e.tree_parent_id.getD 0) with
        | none => .error .missingParent
        | some pe =>
            .ok (dictInsert tree k { e with right_tree_id := pe.right_tree_id })
  else
    .ok tree

/-- The loop of `__set_right_tree_ids` over the (fixed) key sequence, threading
the mutated map. -/
def setRightFold (pcdT : PcDict) (maxId : Nat) :
    List Nat → TreeMap → Except EncError TreeMap
  | [], tree => .ok tree
  | k :: ks, tree =>
      match mapFind tree k with
      | none => .error .missingParent
      | some e =>
          match setRightStep pcdT maxId tree k e with
          | .error er => .error er
          | .ok tree2 => setRightFold pcdT maxId ks tree2

/-- `DbImporter.__set_right_tree_ids`: root gets `max(tree_cp_dict) + 1`; every
other entry with a parent gets the smallest larger sibling tree id, or, when it
is the last sibling, its parent's (already assigned) `right_tree_id`.
`max` of an empty `tree_cp_dict` raises (`maxOfEmpty`). -/
def setRightTreeIds (tree : TreeMap) : Except EncError TreeMap :=
  let pcdT := treePcDict tree
  match listMax? (cpKeys tree) with
  | none => .error .maxOfEmpty
  | some maxId => setRightFold pcdT maxId (tree.map Prod.fst) tree

/-- One iteration of the loop of `DbManager.set_right_tree_ids` — the earlier
revision: identical to `setRightStep` except that the second branch also
requires `not e.is_leaf`, so leaf entries are skipped. -/
def setRightStepM (pcdT : PcDict) (maxId : Nat) (tree : TreeMap)
    (k : Nat) (e : TreeEntry) : Except EncError TreeMap :=
  if k = 1 then
    .ok (dictInsert tree k { e with right_tree_id := some (maxId + 1) })
  else if !e.is_leaf && e.tree_parent_id ≠ none then
    let sibs := (pcGet pcdT (e.tree_parent_id.getD 0)).filter (fun x => k < x)
    match sibs with
    | s :: ss =>
        .ok (dictInsert tree k { e with right_tree_id := some (listMin1 s ss) })
    | [] =>
        match mapFind tree (e.tree_parent_id.getD 0) with
        | none => .error .missingParent
        | some pe =>
            .ok (dictInsert tree k { e with right_tree_id := pe.right_tree_id })
  else
    .ok tree

/-- The loop of `DbManager.set_right_tree_ids`. -/
def setRightFoldM (pcdT : PcDict) (maxId : Nat) :
    List Nat → TreeMap → Except EncError TreeMap
  | [], tree => .ok tree
  | k :: ks, tree =>
      match mapFind tree k with
      | none => .error .missingParent
      | some e =>
          match setRightStepM pcdT maxId tree k e with
          | .error er => .error er
          | .ok tree2 => setRightFoldM pcdT maxId ks tree2

/-- `DbManager.set_right_tree_ids` (the earlier, leaf-skipping revision). -/
def setRightTreeIdsM (tree : TreeMap) : Except EncError TreeMap :=
  let pcdT := treePcDict tree
  match listMax? (cpKeys tree) with
  | none => .error .maxOfEmpty
  | some maxId => setRightFoldM pcdT maxId (tree.map Prod.fst) tree

/-- The root `TreeEntry` built in `__get_tree_df`:
`TreeEntry(tree_id=1, tax_id=1, tree_parent_id=None, level=1, is_leaf=False)`. -/
def rootEntry : TreeEntry :=
  { tree_id := 1, tree_parent_id := none, tax_id := 1, level := 1,
    right_tree_id := none, is_leaf := false }

/-- `DbImporter.__get_tree_df`, with the state of the shared `tree={}` default
argument of `__get_tree` made explicit: `state` is the dictionary object the
call starts from (CPython evaluates the default `{}` once, so successive calls
share one mutable dictionary), and the returned map is that object's state
after the call.  Returns the list of entries (`list(tree.values())`). -/
def getTreeDfSt (fuel : Nat) (state : TreeMap) (edges : List (Nat × Nat)) :
    Except EncError (List TreeEntry × TreeMap) :=
  match getParentChildDict edges with
  | .error er => .error er
  | .ok pcd =>
      match getTree fuel rootEntry pcd 0 1 state with
      | .error er => .error er
      | .ok (tree, _number_of_nodes) =>
          match setRightTreeIds tree with
          | .error er => .error er
          | .ok tree2 => .ok (tree2.map Prod.snd, tree2)

/-- `__get_tree_df` on a fresh traversal dictionary (a first call in the
process). -/
def getTreeDf (fuel : Nat) (edges : List (Nat × Nat)) :
    Except EncError (List TreeEntry) :=
  (getTreeDfSt fuel [] edges).map Prod.fst

/-- The error of a failed computation, if it failed. -/
def errOf {α : Type} : Except EncError α → Option EncError
  | .error e => some e
  | .ok _ => none

/-- Whether a computation succeeded. -/
def exceptOk {α : Type} : Except EncError α → Bool
  | .ok _ => true
  | .error _ => false

/-! ### The REST query layer (`api/main.py`) -/

/-- The columns of the stored `Node` row that the sibling/descendant queries
read. -/
structure NodeRow where
  tax_id : Nat
  parent_tax_id : Nat
  tree_id : Nat
  right_tree_id : Option Nat
  is_leaf : Bool
deriving Repr, DecidableEq

/-- A stored `Name` row. -/
structure NameRow where
  tax_id : Nat
  name_txt : String
  name_class : String
deriving Repr, DecidableEq

/-- The stored tables the two node queries touch. -/
structure Db where
  nodes : List NodeRow
  names : List NameRow
deriving Repr, DecidableEq

/-- One row of the query output (`tax_id`, `parent_tax_id`, `scientific_name`). -/
structure ResultRow where
  tax_id : Nat
  parent_tax_id : Nat
  scientific_name : String
deriving Repr, DecidableEq

/-- The response shape `{count, limit, offset, results}`. -/
structure SearchResponse where
  count : Nat
  limit : Nat
  offset : Nat
  results : List ResultRow
deriving Repr, DecidableEq

/-- The SQL join condition of `search_descendent_nodes`:
`a.tree_id >= b.tree_id AND a.tree_id < b.right_tree_id`, where `b` is the
subtree root and `a` the candidate descendant; a `NULL` `right_tree_id`
compares as false. -/
def isDescendantInclusive (b a : TreeEntry) : Bool :=
  match b.right_tree_id with
  | some r => decide (b.tree_id ≤ a.tree_id) && decide (a.tree_id < r)
  | none => false

/-- The same join condition over stored rows. -/
def rowIntervalTest (b a : NodeRow) : Bool :=
  match b.right_tree_id with
  | some r => decide (b.tree_id ≤ a.tree_id) && decide (a.tree_id < r)
  | none => false

/-- The unpaginated query of `search_siblings_nodes`: a scalar subquery picks
the `parent_tax_id` of the (first) row with the given `tax_id` (an absent tax
id makes the subquery `NULL`, which matches nothing); the main query joins
`Node` with `Name` and keeps the rows with that parent and name class
`"scientific name"`. -/
def siblingsQuery (db : Db) (taxId : Nat) : List ResultRow :=
  match db.nodes.find? (fun n => n.tax_id == taxId) with
  | none => []
  | some n0 =>
      (db.nodes.filter (fun n => n.parent_tax_id == n0.parent_tax_id)).flatMap
        (fun n =>
          (db.names.filter
              (fun m => m.tax_id == n.tax_id && m.name_class == "scientific name")).map
            (fun m => ⟨n.tax_id, n.parent_tax_id, m.name_txt⟩))

/-- `search_siblings_nodes`: `count` from the unpaginated query, `results` from
`query.limit(limit).offset(offset)` (SQL applies the offset first). -/
def searchSiblingsNodes (db : Db) (taxId limit offset : Nat) : SearchResponse :=
  let q := siblingsQuery db taxId
  { count := q.length, limit := limit, offset := offset,
    results := (q.drop offset).take limit }

/-- The unpaginated query of `search_descendent_nodes`: join every node `a`
against the subquery rows `b` (the rows with the requested tax id) on the
half-open interval condition, join `Name` on `a.tax_id` with name class
`"scientific name"`, and optionally keep only leaves. -/
def descendentQuery (db : Db) (taxId : Nat) (onlyLeafs : Bool) : List ResultRow :=
  (db.nodes.filter (fun a => !onlyLeafs || a.is_leaf)).flatMap
    (fun a =>
      ((db.nodes.filter (fun b => b.tax_id == taxId)).filter
          (fun b => rowIntervalTest b a)).flatMap
        (fun _b =>
          (db.names.filter
              (fun m => m.tax_id == a.tax_id && m.name_class == "scientific name")).map
            (fun m => ⟨a.tax_id, a.parent_tax_id, m.name_txt⟩)))

/-- `search_descendent_nodes`: `count` is `SELECT count(*)` over the full
query, `results` is the paginated fetch. -/
def searchDescendentNodes (db : Db) (taxId : Nat) (onlyLeafs : Bool)
    (limit offset : Nat) : SearchResponse :=
  let q := descendentQuery db taxId onlyLeafs
  { count := q.length, limit := limit, offset := offset,
    results := (q.drop offset).take limit }

/-! ### Rose trees: the shape of a valid edge set

A valid edge set (exactly one self-referencing root edge, every other node
reachable from the root, no dangling parents, no cycles) is exactly an edge
set whose parent → children dictionary represents a finite rose tree rooted at
tax id 1.  `agreesT` states that representation; the encoder's behaviour is
then proved by structural induction over the tree. -/

mutual

/-- A finite rooted tree of tax ids. -/
inductive RTree : Type where
  | node : Nat → RForest → RTree
deriving Repr, DecidableEq

/-- An ordered forest. -/
inductive RForest : Type where
  | nil : RForest
  | cons : RTree → RForest → RForest
deriving Repr, DecidableEq

end

mutual

/-- Number of nodes. -/
def RTree.size : RTree → Nat
  | .node _ f => 1 + f.sizeF

/-- Number of nodes of a forest. -/
def RForest.sizeF : RForest → Nat
  | .nil => 0
  | .cons c f => c.size + f.sizeF

end

mutual

/-- Height (a single node has height 1). -/
def RTree.height : RTree → Nat
  | .node _ f => f.heightF + 1

/-- Height of a forest (0 when empty). -/
def RForest.heightF : RForest → Nat
  | .nil => 0
  | .cons c f => max c.height f.heightF

end

mutual

/-- Preorder list of tax ids. -/
def RTree.taxList : RTree → List Nat
  | .node t f => t :: f.taxListF

/-- Preorder list of tax ids of a forest. -/
def RForest.taxListF : RForest → List Nat
  | .nil => []
  | .cons c f => c.taxList ++ f.taxListF

end

/-- The tax id at the root. -/
def RTree.tax : RTree → Nat
  | .node t _ => t

/-- The children forest. -/
def RTree.children : RTree → RForest
  | .node _ f => f

/-- The tax ids of the roots of a forest, in order. -/
def RForest.roots : RForest → List Nat
  | .nil => []
  | .cons c f => c.tax :: f.roots

/-- Whether a tree is a single node. -/
def RTree.isLeafT : RTree → Bool
  | .node _ .nil => true
  | .node _ (.cons _ _) => false

mutual

/-- `agreesT pcd S`: the dictionary `pcd` lists, for every node of `S`, exactly
the tax ids of its children (in order), and has a key for a non-root node of
`S` exactly when that node has children.  (Keys of `pcd` outside `S` are
unconstrained: the traversal never looks at them.) -/
def agreesT (pcd : PcDict) (S : RTree) : Bool :=
  match S with
  | .node t f => decide (pcGet pcd t = f.roots) && agreesF pcd f

/-- Forest version of `agreesT`; also fixes `pcMem` for every root of the
forest (that is what the traversal's `is_leaf` computation reads). -/
def agreesF (pcd : PcDict) (f : RForest) : Bool :=
  match f with
  | .nil => true
  | .cons c f' =>
      decide (pcMem pcd c.tax = !c.isLeafT) && agreesT pcd c && agreesF pcd f'

end

mutual

/-- The encoding the pipeline produces for the subtree rooted at the prebuilt
entry `e` (whose `right_tree_id` is already set to one past the subtree's id
interval): preorder keys starting at `e.tree_id`, children stamped with level
`lvl`. -/
def encTR : RTree → TreeEntry → Nat → TreeMap
  | .node _ f, e, lvl =>
      (e.tree_id, { e with right_tree_id := some (e.tree_id + 1 + f.sizeF) }) ::
        encFR f e.tree_id lvl e.tree_id

/-- Forest version of `encTR`: children of the entry with tree id `pid`,
stamped with level `lvl`, ids continuing after `lastId`. -/
def encFR : RForest → Nat → Nat → Nat → TreeMap
  | .nil, _, _, _ => []
  | .cons c f, pid, lvl, lastId =>
      encTR c (mkEntry (lastId + 1) (some pid) c.tax lvl c.isLeafT) (lvl + 1) ++
        encFR f pid lvl (lastId + c.size)

end

/-- Erase every `right_tree_id` (the state between the two passes). -/
def eraseR (m : TreeMap) : TreeMap :=
  m.map (fun p => (p.fst, { p.snd with right_tree_id := none }))

/-- The ids of the roots of a forest as laid out by `encFR` after `lastId`. -/
def idSeq : RForest → Nat → List Nat
  | .nil, _ => []
  | .cons c f, lastId => (lastId + 1) :: idSeq f (lastId + c.size)

mutual

/-- The first subtree (in preorder) whose root has tax id `a`. -/
def findSubT : RTree → Nat → Option RTree
  | .node t f, a =>
      if t = a then some (.node t f) else findSubF f a

/-- Forest version of `findSubT`. -/
def findSubF : RForest → Nat → Option RTree
  | .nil, _ => none
  | .cons c f, a =>
      match findSubT c a with
      | some s => some s
      | none => findSubF f a

end

/-- The reference descendant test: `b` is reachable from `a` by following
child edges zero or more times, i.e. `b` occurs in the subtree rooted at `a`. -/
def reachableFrom (T : RTree) (a b : Nat) : Bool :=
  match findSubT T a with
  | some s => s.taxList.contains b
  | none => false

mutual

/-- `hasNodeT S myId q S'`: in the encoding of `S` whose root has tree id
`myId`, the node with tree id `q` exists and is the root of subtree `S'`. -/
def hasNodeT : RTree → Nat → Nat → RTree → Prop
  | .node t f, myId, q, S' =>
      (q = myId ∧ S' = .node t f) ∨ hasNodeF f myId q S'

/-- Forest version of `hasNodeT`; ids of the forest continue after `lastId`. -/
def hasNodeF : RForest → Nat → Nat → RTree → Prop
  | .nil, _, _, _ => False
  | .cons c f, lastId, q, S' =>
      hasNodeT c (lastId + 1) q S' ∨ hasNodeF f (lastId + c.size) q S'

end

end TaxTree

namespace TaxTree

/-! ### Dictionary infrastructure lemmas -/

theorem pcFind_addChild (pcd : PcDict) (p t q : Nat) :
    pcFind (addChild pcd p t) q =
      if q = p then some (pcGet pcd p ++ [t]) else pcFind pcd q := by
  induction pcd with
  | nil =>
      by_cases h : q = p
      · subst h; simp [addChild, pcFind, pcGet]
      · simp [addChild, pcFind, h, Ne.symm h]
  | cons hd tl ih =>
      obtain ⟨k, cs⟩ := hd
      by_cases hk : k = p
      · subst hk
        by_cases hq : q = k
        · subst hq; simp [addChild, pcFind, pcGet]
        · simp [addChild, pcFind, hq, Ne.symm hq]
      · by_cases hq : q = k
        · subst hq
          simp [addChild, pcFind, hk, Ne.symm hk]
        · by_cases hqp : q = p
          · subst hqp
            simp [addChild, pcFind, hk, Ne.symm hq, ih, pcGet]
          · simp [addChild, pcFind, hk, Ne.symm hq, hqp, ih]

theorem pcGet_addChild (pcd : PcDict) (p t q : Nat) :
    pcGet (addChild pcd p t) q =
      if q = p then pcGet pcd p ++ [t] else pcGet pcd q := by
  by_cases h : q = p <;> simp [pcGet, pcFind_addChild, h]

/-- Characterization of `treePcDict` groups via a fold generalization. -/
theorem pcGet_treePcDict_foldl (m : TreeMap) :
    ∀ (acc : PcDict) (q : Nat),
      pcGet
        (m.foldl
          (fun acc p =>
            if truthyParent p.snd then
              addChild acc (p.snd.tree_parent_id.getD 0) p.fst
            else acc) acc) q =
      pcGet acc q ++
        (m.filter
          (fun p => truthyParent p.snd && p.snd.tree_parent_id.getD 0 == q)).map
          Prod.fst := by
  induction m with
  | nil => intro acc q; simp
  | cons hd tl ih =>
      intro acc q
      obtain ⟨k, e⟩ := hd
      by_cases ht : truthyParent e
      · by_cases hq : e.tree_parent_id.getD 0 = q
        · simp [List.foldl_cons, ht, ih, pcGet_addChild, hq, List.filter_cons]
        · simp [List.foldl_cons, ht, ih, pcGet_addChild, Ne.symm hq,
            List.filter_cons, hq]
      · simp [List.foldl_cons, ht, ih, List.filter_cons]

theorem pcGet_treePcDict (m : TreeMap) (q : Nat) :
    pcGet (treePcDict m) q =
      (m.filter
        (fun p => truthyParent p.snd && p.snd.tree_parent_id.getD 0 == q)).map
        Prod.fst := by
  have := pcGet_treePcDict_foldl m [] q
  simpa [treePcDict, pcGet, pcFind] using this

theorem keys_dictInsert_of_mem (m : TreeMap) (k : Nat) (e : TreeEntry)
    (h : k ∈ m.map Prod.fst) :
    (dictInsert m k e).map Prod.fst = m.map Prod.fst := by
  induction m with
  | nil => simp at h
  | cons hd tl ih =>
      obtain ⟨k', e'⟩ := hd
      by_cases hk : k' = k
      · simp [dictInsert, hk]
      · simp only [List.map_cons, List.mem_cons] at h
        have : k ∈ tl.map Prod.fst := by
          rcases h with h | h
          · exact absurd h.symm hk
          · exact h
        simp [dictInsert, hk, ih this]

theorem dictInsert_of_not_mem (m : TreeMap) (k : Nat) (e : TreeEntry)
    (h : k ∉ m.map Prod.fst) :
    dictInsert m k e = m ++ [(k, e)] := by
  induction m with
  | nil => simp [dictInsert]
  | cons hd tl ih =>
      obtain ⟨k', e'⟩ := hd
      simp only [List.map_cons, List.mem_cons] at h
      push_neg at h
      simp [dictInsert, Ne.symm h.1, ih h.2]

theorem mapFind_dictInsert (m : TreeMap) (k : Nat) (e : TreeEntry) (q : Nat) :
    mapFind (dictInsert m k e) q = if q = k then some e else mapFind m q := by
  induction m with
  | nil =>
      by_cases h : q = k
      · subst h; simp [dictInsert, mapFind]
      · simp [dictInsert, mapFind, h, Ne.symm h]
  | cons hd tl ih =>
      obtain ⟨k', e'⟩ := hd
      by_cases hk : k' = k
      · subst hk
        by_cases hq : q = k'
        · subst hq; simp [dictInsert, mapFind]
        · simp [dictInsert, mapFind, hq, Ne.symm hq]
      · by_cases hq : q = k'
        · subst hq
          simp [dictInsert, mapFind, hk, Ne.symm hk]
        · by_cases hqk : q = k
          · subst hqk
            simp [dictInsert, mapFind, hk, Ne.symm hq, ih]
          · simp [dictInsert, mapFind, hk, Ne.symm hq, hqk, ih]

theorem dictInsert_append_replace (pre : TreeMap) (k : Nat)
    (o e : TreeEntry) (rest : TreeMap)
    (h : k ∉ pre.map Prod.fst) :
    dictInsert (pre ++ (k, o) :: rest) k e = pre ++ (k, e) :: rest := by
  induction pre with
  | nil => simp [dictInsert]
  | cons hd tl ih =>
      obtain ⟨k', e'⟩ := hd
      simp only [List.map_cons, List.mem_cons] at h
      push_neg at h
      simp [dictInsert, Ne.symm h.1, ih h.2]

theorem mapFind_eq_some_mem (m : TreeMap) (k : Nat) (x : TreeEntry)
    (h : mapFind m k = some x) : (k, x) ∈ m := by
  induction m with
  | nil => simp [mapFind] at h
  | cons hd tl ih =>
      obtain ⟨k', e'⟩ := hd
      simp only [mapFind] at h
      by_cases hk : k' = k
      · rw [if_pos hk] at h
        injection h with h
        subst hk; subst h
        exact List.mem_cons_self _ _
      · rw [if_neg hk] at h
        exact List.mem_cons.mpr (Or.inr (ih h))

theorem mapFind_of_mem_nodup (m : TreeMap) (k : Nat) (x : TreeEntry)
    (hnd : (m.map Prod.fst).Nodup) (h : (k, x) ∈ m) :
    mapFind m k = some x := by
  induction m with
  | nil => simp at h
  | cons hd tl ih =>
      obtain ⟨k', e'⟩ := hd
      simp only [List.map_cons, List.nodup_cons] at hnd
      rcases List.mem_cons.mp h with h1 | h1
      · injection h1 with hA hB
        subst hA; subst hB
        simp [mapFind]
      · have hk : k' ≠ k := by
          intro hkk
          exact hnd.1 (hkk ▸ (List.mem_map.mpr ⟨(k, x), h1, rfl⟩))
        simp [mapFind, hk, ih hnd.2 h1]

theorem mapFind_append (a b : TreeMap) (k : Nat) :
    mapFind (a ++ b) k =
      match mapFind a k with
      | some x => some x
      | none => mapFind b k := by
  induction a with
  | nil => simp [mapFind]
  | cons hd tl ih =>
      obtain ⟨k', e'⟩ := hd
      by_cases hk : k' = k <;> simp [mapFind, hk, ih]

theorem listMax?_range' (m a : Nat) :
    listMax? (List.range' a (m + 1)) = some (a + m) := by
  induction m generalizing a with
  | zero => simp [List.range'_succ, listMax?]
  | succ n ih =>
      rw [List.range'_succ]
      have h1 : listMax? (a :: List.range' (a + 1) (n + 1)) =
          some (match listMax? (List.range' (a + 1) (n + 1)) with
                | none => a
                | some m => max a m) := rfl
      rw [h1, ih (a + 1)]
      have h2 : max a (a + 1 + n) = a + 1 + n := Nat.max_eq_right (by omega)
      show some (max a (a + 1 + n)) = some (a + (n + 1))
      rw [h2]
      congr 1
      omega

theorem listMin1_eq_self (x : Nat) (xs : List Nat) (h : ∀ y ∈ xs, x ≤ y) :
    listMin1 x xs = x := by
  induction xs generalizing x with
  | nil => rfl
  | cons y ys ih =>
      have hx : min x y = x := Nat.min_eq_left (h y (by simp))
      simp only [listMin1, List.foldl_cons, hx]
      exact ih x (fun z hz => h z (by simp [hz]))

theorem range'_drop (n : Nat) : ∀ (a m : Nat),
    (List.range' a m).drop n = List.range' (a + n) (m - n) := by
  induction n with
  | zero => intro a m; simp
  | succ k ih =>
      intro a m
      cases m with
      | zero => simp
      | succ m' =>
          rw [List.range'_succ]
          have := ih (a + 1) m'
          simp only [List.drop_succ_cons, this]
          congr 1 <;> omega

/-! ### Shape of the encoding -/

theorem range'_append' (s m n : Nat) :
    List.range' s m ++ List.range' (s + m) n = List.range' s (m + n) := by
  have := List.range'_append s m n 1
  simp only [Nat.one_mul] at this
  rw [this, Nat.add_comm n m]

theorem RTree.size_pos (S : RTree) : 1 ≤ S.size := by
  cases S with
  | node t f => simp [RTree.size]

theorem eraseR_append (a b : TreeMap) : eraseR (a ++ b) = eraseR a ++ eraseR b := by
  simp [eraseR]

theorem eraseR_map_fst (m : TreeMap) : (eraseR m).map Prod.fst = m.map Prod.fst := by
  simp [eraseR]

mutual

theorem encTR_keys : ∀ (S : RTree) (e : TreeEntry) (lvl : Nat),
    (encTR S e lvl).map Prod.fst = List.range' e.tree_id S.size
  | .node t f, e, lvl => by
      rw [encTR, List.map_cons, encFR_keys f e.tree_id lvl e.tree_id,
        RTree.size, Nat.add_comm 1 f.sizeF, List.range'_succ]

theorem encFR_keys : ∀ (f : RForest) (pid lvl lastId : Nat),
    (encFR f pid lvl lastId).map Prod.fst = List.range' (lastId + 1) f.sizeF
  | .nil, _, _, _ => rfl
  | .cons c f, pid, lvl, lastId => by
      rw [encFR, List.map_append, encTR_keys c _ (lvl + 1),
        encFR_keys f pid lvl (lastId + c.size), RForest.sizeF]
      rw [show lastId + c.size + 1 = lastId + 1 + c.size by omega]
      exact range'_append' (lastId + 1) c.size f.sizeF

end

mutual

theorem encTR_tax : ∀ (S : RTree) (e : TreeEntry) (lvl : Nat),
    e.tax_id = S.tax →
    (encTR S e lvl).map (fun p => p.snd.tax_id) = S.taxList
  | .node t f, e, lvl, htax => by
      rw [encTR, List.map_cons, encFR_tax f e.tree_id lvl e.tree_id, RTree.taxList]
      have : e.tax_id = t := htax
      simp [this]

theorem encFR_tax : ∀ (f : RForest) (pid lvl lastId : Nat),
    (encFR f pid lvl lastId).map (fun p => p.snd.tax_id) = f.taxListF
  | .nil, _, _, _ => rfl
  | .cons c f, pid, lvl, lastId => by
      rw [encFR, List.map_append, encTR_tax c _ (lvl + 1) rfl,
        encFR_tax f pid lvl (lastId + c.size), RForest.taxListF]

end

theorem right_none_eq (e : TreeEntry) (h : e.right_tree_id = none) :
    { e with right_tree_id := none } = e := by
  cases e
  simp_all

theorem stale_cons_of_map_fst {stale : TreeMap} {a : Nat} {rest : List Nat}
    (h : stale.map Prod.fst = a :: rest) :
    ∃ o stale', stale = (a, o) :: stale' ∧ stale'.map Prod.fst = rest := by
  cases stale with
  | nil => simp at h
  | cons hd tl =>
      obtain ⟨k, o⟩ := hd
      simp only [List.map_cons, List.cons.injEq] at h
      exact ⟨o, tl, by simp [h.1], h.2⟩

theorem eraseR_encTR_cons (t : Nat) (f : RForest) (e : TreeEntry) (lvl : Nat)
    (h : e.right_tree_id = none) :
    eraseR (encTR (.node t f) e lvl) =
      (e.tree_id, e) :: eraseR (encFR f e.tree_id lvl e.tree_id) := by
  rw [encTR]
  simp only [eraseR, List.map_cons]
  congr 1
  · cases e
    simp_all


theorem mkEntry_fields (tid : Nat) (pid : Option Nat) (tax lvl : Nat) (leaf : Bool) :
    (mkEntry tid pid tax lvl leaf).tree_id = tid ∧
    (mkEntry tid pid tax lvl leaf).tree_parent_id = pid ∧
    (mkEntry tid pid tax lvl leaf).tax_id = tax ∧
    (mkEntry tid pid tax lvl leaf).level = lvl ∧
    (mkEntry tid pid tax lvl leaf).right_tree_id = none ∧
    (mkEntry tid pid tax lvl leaf).is_leaf = leaf :=
  ⟨rfl, rfl, rfl, rfl, rfl, rfl⟩

/-! ### The traversal computes the structural encoding

`simT`/`simF` run `__get_tree` over a dictionary that agrees with a rose tree
`S` and show the resulting dictionary state is the erased structural encoding,
threaded through arbitrary already-present state: `pre` (keys before the
subtree's id range, never touched) and `stale` (keys exactly the id range the
traversal is about to assign — the leftover entries of a previous run through
the shared default-argument dictionary — each of which gets overwritten in
place). A fresh run is the special case `stale = []`, `M = 0`. -/

mutual

theorem simT : ∀ (S : RTree) (e : TreeEntry) (pcd : PcDict)
    (fuel lv myId M : Nat) (pre stale : TreeMap),
    agreesT pcd S = true →
    e.tax_id = S.tax → e.tree_id = myId → e.right_tree_id = none →
    S.height ≤ fuel →
    (∀ k ∈ pre.map Prod.fst, k < myId) →
    stale.map Prod.fst = List.range' myId M →
    (M = 0 ∨ S.size ≤ M) →
    getTree fuel e pcd lv myId (pre ++ stale) =
      .ok (pre ++ eraseR (encTR S e (lv + 1)) ++ stale.drop S.size,
        myId + S.size - 1)
  | .node t f, e, pcd, fuel, lv, myId, M, pre, stale,
      hag, htax, hid, hright, hfuel, hpre, hstale, hM => by
      have hagf : agreesT pcd (.node t f) = true := hag
      simp only [agreesT, Bool.and_eq_true, decide_eq_true_eq] at hagf
      obtain ⟨hget, hagF⟩ := hagf
      have hh : f.heightF + 1 ≤ fuel := hfuel
      cases fuel with
      | zero => omega
      | succ fu =>
          rw [getTree]
          have htax' : e.tax_id = t := htax
          rw [htax', hget]
          have hfu : f.heightF ≤ fu := by omega
          have hsize : (RTree.node t f).size = 1 + f.sizeF := rfl
          rcases hM with hM0 | hMs
          · -- fresh run: no stale entries
            have hnil : stale = [] := by
              subst hM0
              cases stale with
              | nil => rfl
              | cons a b => simp at hstale
            subst hnil
            have hins : dictInsert (pre ++ []) e.tree_id e = pre ++ [(myId, e)] := by
              rw [List.append_nil, hid,
                dictInsert_of_not_mem pre myId e
                  (fun hmem => absurd (hpre myId hmem) (by omega))]
            rw [hins]
            have hrec := simF f e pcd fu (lv + 1) myId 0 (pre ++ [(myId, e)]) []
              hagF hfu
              (by
                intro k hk
                simp only [List.map_append, List.mem_append, List.map_cons,
                  List.map_nil, List.mem_cons, List.not_mem_nil, or_false] at hk
                rcases hk with hk | hk
                · exact Nat.le_of_lt (hpre k hk)
                · omega)
              (by simp) (Or.inl rfl)
            simp only [List.append_nil, List.drop_nil] at hrec
            rw [hrec]
            simp only [Except.ok.injEq, Prod.mk.injEq]
            constructor
            · rw [eraseR_encTR_cons t f e (lv + 1) hright, hid]
              simp
            · rw [hsize]
              omega
          · -- overwrite run: the stale entries cover the id range
            have hM1 : 1 ≤ M := by
              have := RTree.size_pos (.node t f)
              omega
            obtain ⟨M', rfl⟩ : ∃ M', M = M' + 1 := ⟨M - 1, by omega⟩
            have hscons : stale.map Prod.fst =
                myId :: List.range' (myId + 1) M' := by
              rw [hstale, List.range'_succ]
            obtain ⟨o, stale', hs, hs2⟩ := stale_cons_of_map_fst hscons
            subst hs
            have hins : dictInsert (pre ++ (myId, o) :: stale') e.tree_id e =
                pre ++ [(myId, e)] ++ stale' := by
              rw [hid, dictInsert_append_replace pre myId o e stale'
                (fun hmem => absurd (hpre myId hmem) (by omega))]
              simp
            rw [hins]
            have hMs' : f.sizeF ≤ M' := by
              rw [hsize] at hMs
              omega
            have hrec := simF f e pcd fu (lv + 1) myId M' (pre ++ [(myId, e)]) stale'
              hagF hfu
              (by
                intro k hk
                simp only [List.map_append, List.mem_append, List.map_cons,
                  List.map_nil, List.mem_cons, List.not_mem_nil, or_false] at hk
                rcases hk with hk | hk
                · exact Nat.le_of_lt (hpre k hk)
                · omega)
              hs2 (Or.inr hMs')
            rw [hrec]
            simp only [Except.ok.injEq, Prod.mk.injEq]
            constructor
            · rw [eraseR_encTR_cons t f e (lv + 1) hright, hid]
              have hdrop : ((myId, o) :: stale').drop (RTree.node t f).size =
                  stale'.drop f.sizeF := by
                rw [hsize, Nat.add_comm, List.drop_succ_cons]
              rw [hdrop]
              simp
            · rw [hsize]
              omega

theorem simF : ∀ (f : RForest) (pe : TreeEntry) (pcd : PcDict)
    (fuel lvl lastId M : Nat) (pre stale : TreeMap),
    agreesF pcd f = true →
    f.heightF ≤ fuel →
    (∀ k ∈ pre.map Prod.fst, k ≤ lastId) →
    stale.map Prod.fst = List.range' (lastId + 1) M →
    (M = 0 ∨ f.sizeF ≤ M) →
    getTreeChildren fuel f.roots pe pcd lvl lastId (pre ++ stale) =
      .ok (pre ++ eraseR (encFR f pe.tree_id lvl lastId) ++ stale.drop f.sizeF,
        lastId + f.sizeF)
  | .nil, pe, pcd, fuel, lvl, lastId, M, pre, stale,
      _hag, _hfuel, _hpre, _hstale, _hM => by
      simp [RForest.roots, getTreeChildren, encFR, eraseR, RForest.sizeF]
  | .cons c f, pe, pcd, fuel, lvl, lastId, M, pre, stale,
      hag, hfuel, hpre, hstale, hM => by
      simp only [agreesF, Bool.and_eq_true, decide_eq_true_eq] at hag
      obtain ⟨⟨hmem, hagc⟩, hagf⟩ := hag
      have hfc : c.height ≤ fuel := le_trans (Nat.le_max_left _ _) hfuel
      have hff : f.heightF ≤ fuel := le_trans (Nat.le_max_right _ _) hfuel
      have hsizeF : (RForest.cons c f).sizeF = c.size + f.sizeF := rfl
      have hMc : M = 0 ∨ c.size ≤ M := by
        rcases hM with h | h
        · exact Or.inl h
        · rw [hsizeF] at h
          omega
      have hchild := simT c
        (mkEntry (lastId + 1) (some pe.tree_id) c.tax lvl (!(pcMem pcd c.tax)))
        pcd fuel lvl (lastId + 1) M pre stale
        hagc rfl rfl rfl hfc
        (fun k hk => by have := hpre k hk; omega)
        hstale hMc
      rw [RForest.roots, getTreeChildren, hchild]
      have hpre2 : ∀ k ∈ (pre ++ eraseR (encTR c
          (mkEntry (lastId + 1) (some pe.tree_id) c.tax lvl
            (!(pcMem pcd c.tax))) (lvl + 1))).map Prod.fst,
          k ≤ lastId + c.size := by
        intro k hk
        simp only [List.map_append, List.mem_append] at hk
        rcases hk with hk | hk
        · have := hpre k hk; omega
        · rw [eraseR_map_fst, encTR_keys] at hk
          have := List.mem_range'_1.mp hk
          simp only [mkEntry] at this
          omega
      have hstale2 : (stale.drop c.size).map Prod.fst =
          List.range' (lastId + c.size + 1) (M - c.size) := by
        rw [List.map_drop, hstale, range'_drop]
        congr 1
        omega
      have hM2 : M - c.size = 0 ∨ f.sizeF ≤ M - c.size := by
        rcases hM with h | h
        · left; omega
        · right
          rw [hsizeF] at h
          omega
      have hrest := simF f pe pcd fuel lvl (lastId + c.size) (M - c.size)
        (pre ++ eraseR (encTR c
          (mkEntry (lastId + 1) (some pe.tree_id) c.tax lvl
            (!(pcMem pcd c.tax))) (lvl + 1))) (stale.drop c.size)
        hagf hff hpre2 hstale2 hM2
      have hid1 : lastId + 1 + c.size - 1 = lastId + c.size := by
        have := RTree.size_pos c
        omega
      rw [hid1]
      refine Eq.trans hrest ?_
      have hent : mkEntry (lastId + 1) (some pe.tree_id) c.tax lvl
          (!(pcMem pcd c.tax)) =
          mkEntry (lastId + 1) (some pe.tree_id) c.tax lvl c.isLeafT := by
        rw [hmem, Bool.not_not]
      rw [hent]
      rw [encFR, eraseR_append, List.drop_drop]
      simp only [hsizeF, List.append_assoc, Nat.add_assoc]

end

/-! ### The sibling dictionary of the right-bound pass -/

@[simp] theorem mkEntry_tree_id (tid : Nat) (pid : Option Nat) (tax lvl : Nat)
    (leaf : Bool) : (mkEntry tid pid tax lvl leaf).tree_id = tid := rfl

@[simp] theorem mkEntry_parent (tid : Nat) (pid : Option Nat) (tax lvl : Nat)
    (leaf : Bool) : (mkEntry tid pid tax lvl leaf).tree_parent_id = pid := rfl

@[simp] theorem mkEntry_tax (tid : Nat) (pid : Option Nat) (tax lvl : Nat)
    (leaf : Bool) : (mkEntry tid pid tax lvl leaf).tax_id = tax := rfl

@[simp] theorem mkEntry_level (tid : Nat) (pid : Option Nat) (tax lvl : Nat)
    (leaf : Bool) : (mkEntry tid pid tax lvl leaf).level = lvl := rfl

@[simp] theorem mkEntry_is_leaf (tid : Nat) (pid : Option Nat) (tax lvl : Nat)
    (leaf : Bool) : (mkEntry tid pid tax lvl leaf).is_leaf = leaf := rfl

@[simp] theorem setRight_parent (e : TreeEntry) (r : Option Nat) :
    ({ e with right_tree_id := r } : TreeEntry).tree_parent_id =
      e.tree_parent_id := rfl

@[simp] theorem setRight_tax (e : TreeEntry) (r : Option Nat) :
    ({ e with right_tree_id := r } : TreeEntry).tax_id = e.tax_id := rfl

@[simp] theorem setRight_is_leaf (e : TreeEntry) (r : Option Nat) :
    ({ e with right_tree_id := r } : TreeEntry).is_leaf = e.is_leaf := rfl

@[simp] theorem setRight_level (e : TreeEntry) (r : Option Nat) :
    ({ e with right_tree_id := r } : TreeEntry).level = e.level := rfl

@[simp] theorem setRight_right (e : TreeEntry) (r : Option Nat) :
    ({ e with right_tree_id := r } : TreeEntry).right_tree_id = r := rfl

@[simp] theorem truthyParent_setRight (e : TreeEntry) (r : Option Nat) :
    truthyParent { e with right_tree_id := r } = truthyParent e := rfl

@[simp] theorem truthyParent_mk (a : Nat) (b : Option Nat) (c d : Nat)
    (r : Option Nat) (l : Bool) :
    truthyParent (TreeEntry.mk a b c d r l) = (b.getD 0 != 0) := rfl

mutual

/-- The child tree ids, inside the encoding of `S` rooted at id `myId`, of the
node with tree id `q` (empty if `q` does not occur). -/
def sibsInT : RTree → Nat → Nat → List Nat
  | .node _ f, myId, q => if q = myId then idSeq f myId else sibsInF f myId q

/-- Forest version of `sibsInT`. -/
def sibsInF : RForest → Nat → Nat → List Nat
  | .nil, _, _ => []
  | .cons c f, lastId, q =>
      sibsInT c (lastId + 1) q ++ sibsInF f (lastId + c.size) q

end

theorem idSeq_bounds : ∀ (f : RForest) (lastId x : Nat),
    x ∈ idSeq f lastId → lastId + 1 ≤ x ∧ x ≤ lastId + f.sizeF
  | .nil, lastId, x, hx => by simp [idSeq] at hx
  | .cons c f, lastId, x, hx => by
      rw [idSeq] at hx
      rcases List.mem_cons.mp hx with h | h
      · subst h
        have := RTree.size_pos c
        have hsz : (RForest.cons c f).sizeF = c.size + f.sizeF := rfl
        omega
      · have := idSeq_bounds f (lastId + c.size) x h
        have hsz : (RForest.cons c f).sizeF = c.size + f.sizeF := rfl
        omega

mutual

theorem sibsInT_eq_nil_lt : ∀ (S : RTree) (myId q : Nat),
    q < myId → sibsInT S myId q = []
  | .node t f, myId, q, h => by
      rw [sibsInT, if_neg (by omega)]
      exact sibsInF_eq_nil_le f myId q (by omega)

theorem sibsInF_eq_nil_le : ∀ (f : RForest) (lastId q : Nat),
    q ≤ lastId → sibsInF f lastId q = []
  | .nil, _, _, _ => rfl
  | .cons c f, lastId, q, h => by
      rw [sibsInF, sibsInT_eq_nil_lt c (lastId + 1) q (by omega),
        sibsInF_eq_nil_le f (lastId + c.size) q (by omega)]
      rfl

end

mutual

theorem sibsInT_eq_nil_ge : ∀ (S : RTree) (myId q : Nat),
    myId + S.size ≤ q → sibsInT S myId q = []
  | .node t f, myId, q, h => by
      have hsz : (RTree.node t f).size = 1 + f.sizeF := rfl
      rw [sibsInT, if_neg (by omega)]
      exact sibsInF_eq_nil_ge f myId q (by omega)

theorem sibsInF_eq_nil_ge : ∀ (f : RForest) (lastId q : Nat),
    lastId + f.sizeF < q → sibsInF f lastId q = []
  | .nil, _, _, _ => rfl
  | .cons c f, lastId, q, h => by
      have hsz : (RForest.cons c f).sizeF = c.size + f.sizeF := rfl
      rw [sibsInF, sibsInT_eq_nil_ge c (lastId + 1) q (by omega),
        sibsInF_eq_nil_ge f (lastId + c.size) q (by omega)]
      rfl

end

/-- Entries produced by `encFR` all carry a `some` parent id at least 1
(hence truthy). -/
theorem encFR_parent_some : ∀ (f : RForest) (pid lvl lastId : Nat)
    (k : Nat) (x : TreeEntry), 1 ≤ pid →
    (k, x) ∈ encFR f pid lvl lastId →
    ∃ p, x.tree_parent_id = some p ∧ 1 ≤ p
  | .nil, _, _, _, _, _, _, hx => by simp [encFR] at hx
  | .cons (.node tc fc) f, pid, lvl, lastId, k, x, hpid, hx => by
      rw [encFR, encTR] at hx
      simp only [mkEntry_tree_id] at hx
      rcases List.mem_append.mp hx with h | h
      · rcases List.mem_cons.mp h with h | h
        · injection h with h1 h2
          subst h2
          exact ⟨pid, rfl, hpid⟩
        · exact encFR_parent_some fc (lastId + 1) (lvl + 1) (lastId + 1)
            k x (by omega) h
      · exact encFR_parent_some f pid lvl (lastId + (RTree.node tc fc).size)
          k x hpid h

/-- The filter of the `tree_pc_dict` grouping, over a forest chunk of the
encoding: the ids grouped under `q` are the chunk's top-level child ids when
`q` is the chunk's parent, and otherwise the child ids of the node `q` inside
the chunk. -/
theorem encFR_filter_parent : ∀ (f : RForest) (pid lvl lastId q : Nat),
    1 ≤ pid → pid ≤ lastId → 1 ≤ q →
    ((encFR f pid lvl lastId).filter
      (fun p => truthyParent p.snd && p.snd.tree_parent_id.getD 0 == q)).map
        Prod.fst =
      if q = pid then idSeq f lastId else sibsInF f lastId q
  | .nil, pid, lvl, lastId, q, _, _, _ => by
      rw [encFR]
      by_cases h : q = pid <;> simp [idSeq, sibsInF, h]
  | .cons (.node tc fc) f, pid, lvl, lastId, q, hpid, hple, hq => by
      have hsz : (RTree.node tc fc).size = 1 + fc.sizeF := rfl
      have hszpos := RTree.size_pos (RTree.node tc fc)
      have hrec1 := encFR_filter_parent fc (lastId + 1) (lvl + 1)
        (lastId + 1) q (by omega) (by omega) hq
      have hrec2 := encFR_filter_parent f pid lvl
        (lastId + (RTree.node tc fc).size) q hpid (by omega) hq
      rw [encFR, encTR, List.filter_append, List.map_append, List.filter_cons]
      have h0 : (pid != 0) = true := by
        simp only [bne_iff_ne, ne_eq]
        omega
      simp only [mkEntry_tree_id, mkEntry_parent, truthyParent_mk,
        Option.getD_some, h0, Bool.true_and]
      by_cases hqp : q = pid
      · rw [if_pos (by simp [hqp] : (pid == q) = true)]
        rw [List.map_cons]
        rw [hrec1, if_neg (by omega : ¬ q = lastId + 1),
          sibsInF_eq_nil_le fc (lastId + 1) q (by omega)]
        rw [hrec2, if_pos hqp, if_pos hqp]
        rw [show idSeq (RForest.cons (RTree.node tc fc) f) lastId =
          (lastId + 1) :: idSeq f (lastId + (RTree.node tc fc).size) from rfl]
        rfl
      · rw [if_neg (by
          simp only [beq_iff_eq]
          exact fun h => hqp h.symm : ¬ (pid == q) = true)]
        rw [hrec1, hrec2, if_neg hqp, if_neg hqp]
        rw [show sibsInF (RForest.cons (RTree.node tc fc) f) lastId q =
          sibsInT (RTree.node tc fc) (lastId + 1) q ++
            sibsInF f (lastId + (RTree.node tc fc).size) q from rfl]
        rw [sibsInT]

mutual

theorem hasNodeT_range : ∀ (S : RTree) (myId q : Nat) (S' : RTree),
    hasNodeT S myId q S' → myId ≤ q ∧ q < myId + S.size
  | .node t f, myId, q, S', h => by
      have hsz : (RTree.node t f).size = 1 + f.sizeF := rfl
      rw [hasNodeT] at h
      rcases h with ⟨hq, _⟩ | h
      · omega
      · have := hasNodeF_range f myId q S' h
        omega

theorem hasNodeF_range : ∀ (f : RForest) (lastId q : Nat) (S' : RTree),
    hasNodeF f lastId q S' → lastId + 1 ≤ q ∧ q < lastId + 1 + f.sizeF
  | .nil, lastId, q, S', h => by rw [hasNodeF] at h; exact absurd h id
  | .cons c f, lastId, q, S', h => by
      have hsz : (RForest.cons c f).sizeF = c.size + f.sizeF := rfl
      rw [hasNodeF] at h
      rcases h with h | h
      · have := hasNodeT_range c (lastId + 1) q S' h
        omega
      · have := hasNodeF_range f (lastId + c.size) q S' h
        omega

end

mutual

theorem sibsInT_at_node : ∀ (S : RTree) (myId q : Nat) (S' : RTree),
    hasNodeT S myId q S' → sibsInT S myId q = idSeq S'.children q
  | .node t f, myId, q, S', h => by
      rw [hasNodeT] at h
      rcases h with ⟨hq, hS⟩ | h
      · subst hq
        subst hS
        rw [sibsInT, if_pos rfl]
        rfl
      · have hr := hasNodeF_range f myId q S' h
        rw [sibsInT, if_neg (by omega)]
        exact sibsInF_at_node f myId q S' h

theorem sibsInF_at_node : ∀ (f : RForest) (lastId q : Nat) (S' : RTree),
    hasNodeF f lastId q S' → sibsInF f lastId q = idSeq S'.children q
  | .nil, lastId, q, S', h => by rw [hasNodeF] at h; exact absurd h id
  | .cons c f, lastId, q, S', h => by
      rw [hasNodeF] at h
      rw [sibsInF]
      rcases h with h | h
      · have hr := hasNodeT_range c (lastId + 1) q S' h
        rw [sibsInF_eq_nil_le f (lastId + c.size) q (by omega),
          sibsInT_at_node c (lastId + 1) q S' h]
        simp
      · have hr := hasNodeF_range f (lastId + c.size) q S' h
        rw [sibsInT_eq_nil_ge c (lastId + 1) q (by omega),
          sibsInF_at_node f (lastId + c.size) q S' h]
        simp

end

/-- Everything the right-bound loop needs to know about a non-root key `k`
with (final) entry `x`: its parent `p` is an earlier key; if `k` has later
siblings in the sibling dictionary, the smallest is exactly `x`'s final right
bound; otherwise the parent's final right bound is `x`'s. -/
def perKeyFact (ENC : TreeMap) (pcdT : PcDict) (k : Nat) (x : TreeEntry) : Prop :=
  ∃ p rk, x.tree_parent_id = some p ∧ x.right_tree_id = some rk ∧
    1 ≤ p ∧ p < k ∧
    (((pcGet pcdT p).filter (fun s => k < s)) = [] →
      ∃ pe, mapFind ENC p = some pe ∧ pe.right_tree_id = some rk) ∧
    (∀ s ss, ((pcGet pcdT p).filter (fun s => k < s)) = s :: ss →
      listMin1 s ss = rk)

theorem encFR_perKey : ∀ (f : RForest) (pid lvl lastId : Nat) (T : RTree)
    (ENC : TreeMap) (pcdT : PcDict) (done : List Nat),
    pcGet pcdT pid = done ++ idSeq f lastId →
    (∀ d ∈ done, d ≤ lastId) →
    1 ≤ pid → pid ≤ lastId →
    (∃ pe, mapFind ENC pid = some pe ∧
      pe.right_tree_id = some (lastId + f.sizeF + 1)) →
    (∀ q S', hasNodeT T 1 q S' → pcGet pcdT q = idSeq S'.children q) →
    (∀ q S', hasNodeF f lastId q S' → hasNodeT T 1 q S') →
    (∀ z, z ∈ encFR f pid lvl lastId → z ∈ ENC) →
    (ENC.map Prod.fst).Nodup →
    ∀ k x, (k, x) ∈ encFR f pid lvl lastId → perKeyFact ENC pcdT k x
  | .nil, pid, lvl, lastId, T, ENC, pcdT, done,
      _h1, _hdone, _hpid, _hple, _h3, _h4, _hpos, _hsub, _hnd, k, x, hmem => by
      simp [encFR] at hmem
  | .cons (.node tc fc) f, pid, lvl, lastId, T, ENC, pcdT, done,
      h1, hdone, hpid, hple, h3, h4, hpos, hsub, hnd, k, x, hmem => by
      have hszc : (RTree.node tc fc).size = 1 + fc.sizeF := rfl
      have hszpos := RTree.size_pos (RTree.node tc fc)
      have hszF : (RForest.cons (RTree.node tc fc) f).sizeF =
        (RTree.node tc fc).size + f.sizeF := rfl
      have hheadmem : ((lastId + 1 : Nat),
          ({ mkEntry (lastId + 1) (some pid) (RTree.node tc fc).tax lvl
            (RTree.node tc fc).isLeafT with
            right_tree_id := some (lastId + 1 + 1 + fc.sizeF) } : TreeEntry)) ∈
          encFR (RForest.cons (RTree.node tc fc) f) pid lvl lastId := by
        rw [encFR, encTR]
        simp only [mkEntry_tree_id]
        exact List.mem_append_left _ (List.mem_cons_self _ _)
      have hidseq : idSeq (RForest.cons (RTree.node tc fc) f) lastId =
          (lastId + 1) :: idSeq f (lastId + (RTree.node tc fc).size) := rfl
      rw [encFR, encTR] at hmem
      simp only [mkEntry_tree_id] at hmem
      rcases List.mem_append.mp hmem with hA | hB
      · rcases List.mem_cons.mp hA with hA1 | hA2
        · -- the top-level child entry at key lastId + 1
          injection hA1 with hk hx
          subst hk
          have hsibs : (pcGet pcdT pid).filter (fun s => lastId + 1 < s) =
              idSeq f (lastId + (RTree.node tc fc).size) := by
            rw [h1, hidseq, List.filter_append, List.filter_cons]
            rw [List.filter_eq_nil_iff.mpr
              (fun d hd => by
                have := hdone d hd
                simp only [decide_eq_true_eq]
                omega)]
            rw [if_neg (by simp)]
            rw [List.filter_eq_self.mpr
              (fun a ha => by
                have := idSeq_bounds f (lastId + (RTree.node tc fc).size) a ha
                simp only [decide_eq_true_eq]
                omega)]
            rfl
          refine ⟨pid, lastId + 1 + 1 + fc.sizeF, by rw [hx]; simp,
            by rw [hx], hpid, by omega, ?_, ?_⟩
          · -- no later sibling: the parent's bound is inherited
            intro hempty
            rw [hsibs] at hempty
            obtain ⟨pe, hpe, hper⟩ := h3
            refine ⟨pe, hpe, ?_⟩
            rw [hper]
            cases f with
            | nil =>
                simp only [hszF, RForest.sizeF, hszc]
                congr 1
                omega
            | cons d f' => simp [idSeq] at hempty
          · -- the next sibling's id is the bound
            intro s ss heq
            rw [hsibs] at heq
            cases f with
            | nil => simp [idSeq] at heq
            | cons d f' =>
                rw [idSeq] at heq
                injection heq with hs hss
                subst hs
                subst hss
                rw [listMin1_eq_self _ _
                  (fun y hy => by
                    have := idSeq_bounds f'
                      (lastId + (RTree.node tc fc).size + d.size) y hy
                    omega)]
                omega
        · -- inside the top-level child's subtree
          have hnodeAt : hasNodeT T 1 (lastId + 1) (RTree.node tc fc) :=
            hpos (lastId + 1) (RTree.node tc fc)
              (Or.inl (by rw [hasNodeT]; exact Or.inl ⟨rfl, rfl⟩))
          refine encFR_perKey fc (lastId + 1) (lvl + 1) (lastId + 1) T ENC pcdT []
            ?_ (by simp) (by omega) (by omega) ?_ h4 ?_ ?_ hnd k x hA2
          · rw [h4 (lastId + 1) (RTree.node tc fc) hnodeAt]
            rfl
          · refine ⟨_, mapFind_of_mem_nodup ENC (lastId + 1) _ hnd
              (hsub _ hheadmem), ?_⟩
            simp only [setRight_right]
            congr 1
            omega
          · exact fun q S' h => hpos q S' (Or.inl (by
              rw [hasNodeT]
              exact Or.inr h))
          · intro z hz
            refine hsub z ?_
            rw [encFR, encTR]
            simp only [mkEntry_tree_id]
            exact List.mem_append_left _ (List.mem_cons_of_mem _ hz)
      · -- in a later sibling's subtree
        refine encFR_perKey f pid lvl (lastId + (RTree.node tc fc).size) T ENC
          pcdT (done ++ [lastId + 1]) ?_ ?_ hpid (by omega) ?_ h4 ?_ ?_ hnd k x hB
        · rw [h1, hidseq]
          simp
        · intro d hd
          rcases List.mem_append.mp hd with h | h
          · have := hdone d h
            omega
          · simp at h
            omega
        · obtain ⟨pe, hpe, hper⟩ := h3
          refine ⟨pe, hpe, ?_⟩
          rw [hper]
          congr 1
          rw [hszF]
          omega
        · exact fun q S' h => hpos q S' (Or.inr h)
        · intro z hz
          refine hsub z ?_
          rw [encFR]
          exact List.mem_append_right _ hz

/-! ### Running the right-bound loop over the encoding -/

/-- Replace the `right_tree_id` field. -/
def withRight (x : TreeEntry) (r : Option Nat) : TreeEntry :=
  { x with right_tree_id := r }

@[simp] theorem withRight_parent (x : TreeEntry) (r : Option Nat) :
    (withRight x r).tree_parent_id = x.tree_parent_id := rfl

@[simp] theorem withRight_right (x : TreeEntry) (r : Option Nat) :
    (withRight x r).right_tree_id = r := rfl

theorem withRight_self (x : TreeEntry) (r : Option Nat)
    (h : x.right_tree_id = r) : withRight x r = x := by
  cases x
  simp_all [withRight]

theorem withRight_withRight (x : TreeEntry) (r r' : Option Nat) :
    withRight (withRight x r) r' = withRight x r' := by
  cases x
  simp [withRight]

theorem entry_restore (x : TreeEntry) (p rk : Nat)
    (hpar : x.tree_parent_id = some p) (hright : x.right_tree_id = some rk) :
    TreeEntry.mk x.tree_id (some p) x.tax_id x.level (some rk) x.is_leaf = x := by
  cases x
  simp_all

theorem eraseR_eq_map_withRight (m : TreeMap) :
    eraseR m = m.map (fun p => (p.fst, withRight p.snd none)) := rfl

/-- The map state after the loop has processed the keys up to `j`: processed
entries carry their final value, unprocessed ones are still erased. -/
def mixedUpTo (ENC : TreeMap) (j : Nat) : TreeMap :=
  match ENC with
  | [] => []
  | (k, e) :: rest =>
      (if k ≤ j then (k, e) else (k, withRight e none)) :: mixedUpTo rest j

theorem mixedUpTo_zero (ENC : TreeMap) (h : ∀ k ∈ ENC.map Prod.fst, 1 ≤ k) :
    mixedUpTo ENC 0 = eraseR ENC := by
  induction ENC with
  | nil => rfl
  | cons hd tl ih =>
      obtain ⟨k, e⟩ := hd
      rw [mixedUpTo, if_neg (by have := h k (by simp); omega)]
      rw [eraseR_eq_map_withRight, List.map_cons]
      rw [ih (fun k' hk' => h k' (by simp [hk']))]
      rfl

theorem mixedUpTo_top (ENC : TreeMap) (N : Nat)
    (h : ∀ k ∈ ENC.map Prod.fst, k ≤ N) :
    mixedUpTo ENC N = ENC := by
  induction ENC with
  | nil => rfl
  | cons hd tl ih =>
      obtain ⟨k, e⟩ := hd
      rw [mixedUpTo, if_pos (h k (by simp))]
      rw [ih (fun k' hk' => h k' (by simp [hk']))]

theorem mixedUpTo_congr (ENC : TreeMap) (j : Nat)
    (h : ∀ k ∈ ENC.map Prod.fst, k ≠ j + 1) :
    mixedUpTo ENC j = mixedUpTo ENC (j + 1) := by
  induction ENC with
  | nil => rfl
  | cons hd tl ih =>
      obtain ⟨k, e⟩ := hd
      have hk : k ≠ j + 1 := h k (by simp)
      rw [mixedUpTo, mixedUpTo, ih (fun k' hk' => h k' (by simp [hk']))]
      by_cases hj : k ≤ j
      · rw [if_pos hj, if_pos (by omega)]
      · rw [if_neg hj, if_neg (by omega)]

theorem mapFind_mixedUpTo (ENC : TreeMap) (j k : Nat) (x : TreeEntry)
    (hnd : (ENC.map Prod.fst).Nodup) (hmem : (k, x) ∈ ENC) :
    mapFind (mixedUpTo ENC j) k =
      some (if k ≤ j then x else withRight x none) := by
  induction ENC with
  | nil => simp at hmem
  | cons hd tl ih =>
      obtain ⟨k0, x0⟩ := hd
      simp only [List.map_cons, List.nodup_cons] at hnd
      rcases List.mem_cons.mp hmem with h1 | h1
      · injection h1 with hA hB
        subst hA
        subst hB
        by_cases hj : k ≤ j
        · rw [mixedUpTo, if_pos hj, mapFind, if_pos rfl, if_pos hj]
        · rw [mixedUpTo, if_neg hj, mapFind, if_pos rfl, if_neg hj]
      · have hk : k0 ≠ k := by
          intro hkk
          exact hnd.1 (hkk ▸ (List.mem_map.mpr ⟨(k, x), h1, rfl⟩))
        have hrec := ih hnd.2 h1
        by_cases hj : k0 ≤ j
        · rw [mixedUpTo, if_pos hj, mapFind, if_neg hk, hrec]
        · rw [mixedUpTo, if_neg hj, mapFind, if_neg hk, hrec]

theorem dictInsert_mixedUpTo (ENC : TreeMap) (j : Nat) (x : TreeEntry)
    (hnd : (ENC.map Prod.fst).Nodup) (hmem : (j + 1, x) ∈ ENC) :
    dictInsert (mixedUpTo ENC j) (j + 1) x = mixedUpTo ENC (j + 1) := by
  induction ENC with
  | nil => simp at hmem
  | cons hd tl ih =>
      obtain ⟨k0, x0⟩ := hd
      simp only [List.map_cons, List.nodup_cons] at hnd
      rcases List.mem_cons.mp hmem with h1 | h1
      · injection h1 with hA hB
        subst hA
        subst hB
        have htl : mixedUpTo tl j = mixedUpTo tl (j + 1) :=
          mixedUpTo_congr tl j (fun k' hk' => by
            intro he
            exact hnd.1 (he ▸ hk'))
        rw [mixedUpTo, if_neg (by omega), mixedUpTo, if_pos (by omega),
          dictInsert, if_pos rfl, htl]
      · have hk0 : k0 ≠ j + 1 := by
          intro hkk
          exact hnd.1 (hkk ▸ (List.mem_map.mpr ⟨(j + 1, x), h1, rfl⟩))
        have hrec := ih hnd.2 h1
        by_cases hj : k0 ≤ j
        · rw [mixedUpTo, if_pos hj, mixedUpTo, if_pos (by omega),
            dictInsert, if_neg hk0, hrec]
        · rw [mixedUpTo, if_neg hj, mixedUpTo, if_neg (by omega),
            dictInsert, if_neg hk0, hrec]

theorem setRightFold_cons (pcdT : PcDict) (maxId k : Nat) (ks : List Nat)
    (tree tree2 : TreeMap) (e : TreeEntry)
    (hfind : mapFind tree k = some e)
    (hstep : setRightStep pcdT maxId tree k e = .ok tree2) :
    setRightFold pcdT maxId (k :: ks) tree = setRightFold pcdT maxId ks tree2 := by
  rw [setRightFold]
  simp only [hfind, hstep]

theorem setRightFold_mixed (cnt : Nat) : ∀ (j : Nat) (ENC : TreeMap)
    (pcdT : PcDict) (maxId N : Nat),
    ENC.map Prod.fst = List.range' 1 N →
    (∀ k x, (k, x) ∈ ENC → k ≠ 1 → perKeyFact ENC pcdT k x) →
    (∀ x1, (1, x1) ∈ ENC → x1.right_tree_id = some (maxId + 1)) →
    j + cnt = N →
    setRightFold pcdT maxId (List.range' (j + 1) cnt) (mixedUpTo ENC j) =
      .ok (mixedUpTo ENC N) := by
  induction cnt with
  | zero =>
      intro j ENC pcdT maxId N hkeys hPK hroot hj
      rw [show List.range' (j + 1) 0 = [] from rfl, setRightFold]
      rw [show j = N by omega]
  | succ cnt ih =>
      intro j ENC pcdT maxId N hkeys hPK hroot hj
      have hnd : (ENC.map Prod.fst).Nodup := by
        rw [hkeys]
        exact List.nodup_range' 1 N 1 (by norm_num)
      have hkmem : (j + 1) ∈ ENC.map Prod.fst := by
        rw [hkeys]
        refine List.mem_range'_1.mpr ?_
        omega
      obtain ⟨⟨k', x⟩, hmemx, hk'⟩ := List.mem_map.mp hkmem
      simp only at hk'
      subst hk'
      have hfind := mapFind_mixedUpTo ENC j (j + 1) x hnd hmemx
      rw [if_neg (by omega)] at hfind
      rw [List.range'_succ]
      by_cases h1 : j + 1 = 1
      · -- the root key
        have hx1 : x.right_tree_id = some (maxId + 1) := hroot x (h1 ▸ hmemx)
        have hstep : setRightStep pcdT maxId (mixedUpTo ENC j) (j + 1)
            (withRight x none) = .ok (mixedUpTo ENC (j + 1)) := by
          rw [setRightStep, if_pos h1]
          show Except.ok (dictInsert (mixedUpTo ENC j) (j + 1)
            (withRight x (some (maxId + 1)))) = Except.ok (mixedUpTo ENC (j + 1))
          rw [withRight_self x _ hx1, dictInsert_mixedUpTo ENC j x hnd hmemx]
        rw [setRightFold_cons pcdT maxId (j + 1) _ _ _ _ hfind hstep]
        exact ih (j + 1) ENC pcdT maxId N hkeys hPK hroot (by omega)
      · -- a non-root key
        obtain ⟨p, rk, hpar, hright, hp1, hpk, hinherit, hmin⟩ :=
          hPK (j + 1) x hmemx h1
        have hpare : (withRight x none).tree_parent_id = some p := by
          rw [withRight_parent, hpar]
        have hstep : setRightStep pcdT maxId (mixedUpTo ENC j) (j + 1)
            (withRight x none) = .ok (mixedUpTo ENC (j + 1)) := by
          rw [setRightStep, if_neg h1, if_pos (by rw [hpare]; simp)]
          rw [hpare]
          simp only [Option.getD_some]
          cases hs : (pcGet pcdT p).filter (fun s => j + 1 < s) with
          | nil =>
              obtain ⟨pe, hpe, hper⟩ := hinherit hs
              have hpemem := mapFind_eq_some_mem ENC p pe hpe
              have hpf := mapFind_mixedUpTo ENC j p pe hnd hpemem
              rw [if_pos (by omega)] at hpf
              rw [hpf]
              show Except.ok (dictInsert (mixedUpTo ENC j) (j + 1)
                (TreeEntry.mk x.tree_id (some p) x.tax_id x.level
                  pe.right_tree_id x.is_leaf)) =
                Except.ok (mixedUpTo ENC (j + 1))
              rw [hper, entry_restore x p rk hpar hright,
                dictInsert_mixedUpTo ENC j x hnd hmemx]
          | cons s ss =>
              show Except.ok (dictInsert (mixedUpTo ENC j) (j + 1)
                (TreeEntry.mk x.tree_id (some p) x.tax_id x.level
                  (some (listMin1 s ss)) x.is_leaf)) =
                Except.ok (mixedUpTo ENC (j + 1))
              rw [hmin s ss hs, entry_restore x p rk hpar hright,
                dictInsert_mixedUpTo ENC j x hnd hmemx]
        rw [setRightFold_cons pcdT maxId (j + 1) _ _ _ _ hfind hstep]
        exact ih (j + 1) ENC pcdT maxId N hkeys hPK hroot (by omega)

theorem eraseR_filter_fst (m : TreeMap) (q : Nat) :
    ((eraseR m).filter
      (fun p => truthyParent p.snd && p.snd.tree_parent_id.getD 0 == q)).map
        Prod.fst =
    (m.filter
      (fun p => truthyParent p.snd && p.snd.tree_parent_id.getD 0 == q)).map
        Prod.fst := by
  induction m with
  | nil => rfl
  | cons hd tl ih =>
      obtain ⟨k, x⟩ := hd
      rw [eraseR_eq_map_withRight, List.map_cons]
      rw [show (eraseR tl : TreeMap) = tl.map
        (fun p => (p.fst, withRight p.snd none)) from rfl] at ih
      by_cases hP : (truthyParent x && x.tree_parent_id.getD 0 == q) = true
      · rw [List.filter_cons, List.filter_cons,
          if_pos (by simpa using hP), if_pos hP]
        simp only [List.map_cons]
        rw [ih]
      · rw [List.filter_cons, List.filter_cons,
          if_neg (by simpa using hP), if_neg hP]
        exact ih

theorem cpKeys_eraseR (m : TreeMap) : cpKeys (eraseR m) = cpKeys m := by
  induction m with
  | nil => rfl
  | cons hd tl ih =>
      obtain ⟨k, x⟩ := hd
      rw [eraseR_eq_map_withRight, List.map_cons]
      rw [show (eraseR tl : TreeMap) = tl.map
        (fun p => (p.fst, withRight p.snd none)) from rfl] at ih
      by_cases hP : truthyParent x = true
      · rw [cpKeys, List.filter_cons, if_pos (by simpa using hP)]
        rw [cpKeys, List.filter_cons, if_pos hP]
        simp only [List.map_cons]
        rw [show ((tl.map (fun p => (p.fst, withRight p.snd none))).filter
          (fun p => truthyParent p.snd)).map Prod.fst = cpKeys (tl.map
            (fun p => (p.fst, withRight p.snd none))) from rfl, ih]
        rfl
      · rw [cpKeys, List.filter_cons, if_neg (by simpa using hP)]
        rw [cpKeys, List.filter_cons, if_neg hP]
        exact ih

theorem rootF_def (t : Nat) (F : RForest) :
    encTR (RTree.node t F) rootEntry 1 =
      (1, { rootEntry with right_tree_id := some (1 + 1 + F.sizeF) }) ::
        encFR F 1 1 1 := rfl

theorem truthyParent_rootF (F : RForest) :
    truthyParent { rootEntry with right_tree_id := some (1 + 1 + F.sizeF) } =
      false := rfl

/-- `DbImporter.__set_right_tree_ids`, applied to the dictionary state the
traversal produces for a tree with at least two nodes, assigns every entry the
right bound `tree_id + subtree size` — i.e. it turns the erased structural
encoding into the full one. -/
theorem setRightTreeIds_encoding (t : Nat) (F : RForest) (hF : 1 ≤ F.sizeF) :
    setRightTreeIds (eraseR (encTR (RTree.node t F) rootEntry 1)) =
      .ok (encTR (RTree.node t F) rootEntry 1) := by
  have hkeys : (encTR (RTree.node t F) rootEntry 1).map Prod.fst =
      List.range' 1 (1 + F.sizeF) :=
    encTR_keys (RTree.node t F) rootEntry 1
  have hnd : ((encTR (RTree.node t F) rootEntry 1).map Prod.fst).Nodup := by
    rw [hkeys]
    exact List.nodup_range' 1 (1 + F.sizeF) 1 (by norm_num)
  have hget : ∀ q, 1 ≤ q →
      pcGet (treePcDict (eraseR (encTR (RTree.node t F) rootEntry 1))) q =
        (if q = 1 then idSeq F 1 else sibsInF F 1 q) := by
    intro q hq
    rw [pcGet_treePcDict, eraseR_filter_fst, rootF_def, List.filter_cons,
      if_neg (by rw [truthyParent_rootF]; simp)]
    exact encFR_filter_parent F 1 1 1 q (by omega) (by omega) hq
  have h4 : ∀ q S', hasNodeT (RTree.node t F) 1 q S' →
      pcGet (treePcDict (eraseR (encTR (RTree.node t F) rootEntry 1))) q =
        idSeq S'.children q := by
    intro q S' hn
    have hr := hasNodeT_range _ 1 q S' hn
    rw [hget q (by omega)]
    rw [hasNodeT] at hn
    rcases hn with ⟨hq, hS⟩ | hn
    · subst hq
      subst hS
      rw [if_pos rfl]
      rfl
    · have hrf := hasNodeF_range F 1 q S' hn
      rw [if_neg (by omega)]
      exact sibsInF_at_node F 1 q S' hn
  have hfind1 : mapFind (encTR (RTree.node t F) rootEntry 1) 1 =
      some { rootEntry with right_tree_id := some (1 + 1 + F.sizeF) } := by
    rw [rootF_def, mapFind, if_pos rfl]
  have hPK : ∀ k x, (k, x) ∈ encTR (RTree.node t F) rootEntry 1 → k ≠ 1 →
      perKeyFact (encTR (RTree.node t F) rootEntry 1)
        (treePcDict (eraseR (encTR (RTree.node t F) rootEntry 1))) k x := by
    intro k x hm hk1
    rw [rootF_def] at hm
    rcases List.mem_cons.mp hm with h | h
    · injection h with hA hB
      exact absurd hA hk1
    · refine encFR_perKey F 1 1 1 (RTree.node t F) _ _ [] ?_ (by simp)
        (by omega) (by omega) ?_ h4 ?_ ?_ hnd k x h
      · rw [hget 1 (by omega), if_pos rfl]
        rfl
      · refine ⟨_, hfind1, ?_⟩
        rw [setRight_right]
        congr 1
        omega
      · intro q S' hh
        rw [hasNodeT]
        exact Or.inr hh
      · intro z hz
        rw [rootF_def]
        exact List.mem_cons_of_mem _ hz
  have hroot : ∀ x1, (1, x1) ∈ encTR (RTree.node t F) rootEntry 1 →
      x1.right_tree_id = some (1 + F.sizeF + 1) := by
    intro x1 h
    rw [rootF_def] at h
    rcases List.mem_cons.mp h with h | h
    · injection h with hA hB
      subst hB
      rw [setRight_right]
      congr 1
      omega
    · exfalso
      have : (1 : Nat) ∈ (encFR F 1 1 1).map Prod.fst :=
        List.mem_map.mpr ⟨(1, x1), h, rfl⟩
      rw [encFR_keys] at this
      have := List.mem_range'_1.mp this
      omega
  have hmax : listMax? (cpKeys (eraseR (encTR (RTree.node t F) rootEntry 1))) =
      some (1 + F.sizeF) := by
    rw [cpKeys_eraseR, rootF_def, cpKeys, List.filter_cons,
      if_neg (by rw [truthyParent_rootF]; simp)]
    rw [List.filter_eq_self.mpr (fun z hz => by
      obtain ⟨p, hp, hp1⟩ := encFR_parent_some F 1 1 1 z.fst z.snd (by omega)
        (by simpa using hz)
      simp only [truthyParent, hp, Option.getD_some, bne_iff_ne, ne_eq]
      omega)]
    rw [show ((encFR F 1 1 1).map Prod.fst : List Nat) =
      List.range' 2 F.sizeF from encFR_keys F 1 1 1]
    obtain ⟨m, hm⟩ : ∃ m, F.sizeF = m + 1 := ⟨F.sizeF - 1, by omega⟩
    rw [hm, listMax?_range']
    congr 1
    omega
  have hzero : eraseR (encTR (RTree.node t F) rootEntry 1) =
      mixedUpTo (encTR (RTree.node t F) rootEntry 1) 0 := by
    refine (mixedUpTo_zero _ ?_).symm
    rw [hkeys]
    intro k hk
    exact (List.mem_range'_1.mp hk).1
  have hfold := setRightFold_mixed (1 + F.sizeF) 0
    (encTR (RTree.node t F) rootEntry 1)
    (treePcDict (eraseR (encTR (RTree.node t F) rootEntry 1)))
    (1 + F.sizeF) (1 + F.sizeF) hkeys hPK hroot (by omega)
  rw [setRightTreeIds]
  simp only [hmax]
  rw [eraseR_map_fst, hkeys]
  rw [hzero] at hfold ⊢
  rw [show List.range' 1 (1 + F.sizeF) = List.range' (0 + 1) (1 + F.sizeF)
    from rfl]
  rw [hfold]
  rw [mixedUpTo_top _ (1 + F.sizeF) (by
    rw [hkeys]
    intro k hk
    have := List.mem_range'_1.mp hk
    omega)]

/-! ### The end-to-end encoding pipeline -/

theorem getTreeDfSt_ok (fuel : Nat) (st : TreeMap) (edges : List (Nat × Nat))
    (pcd : PcDict) (tree : TreeMap) (n : Nat) (tree2 : TreeMap)
    (h1 : getParentChildDict edges = .ok pcd)
    (h2 : getTree fuel rootEntry pcd 0 1 st = .ok (tree, n))
    (h3 : setRightTreeIds tree = .ok tree2) :
    getTreeDfSt fuel st edges = .ok (tree2.map Prod.snd, tree2) := by
  rw [getTreeDfSt]
  simp only [h1, h2, h3]

theorem getTreeDfSt_err_pc (fuel : Nat) (st : TreeMap)
    (edges : List (Nat × Nat)) (er : EncError)
    (h1 : getParentChildDict edges = .error er) :
    getTreeDfSt fuel st edges = .error er := by
  rw [getTreeDfSt]
  simp only [h1]

theorem getTreeDfSt_err_right (fuel : Nat) (st : TreeMap)
    (edges : List (Nat × Nat)) (pcd : PcDict) (tree : TreeMap) (n : Nat)
    (er : EncError)
    (h1 : getParentChildDict edges = .ok pcd)
    (h2 : getTree fuel rootEntry pcd 0 1 st = .ok (tree, n))
    (h3 : setRightTreeIds tree = .error er) :
    getTreeDfSt fuel st edges = .error er := by
  rw [getTreeDfSt]
  simp only [h1, h2, h3]

/-- A traversal from the root over an agreeing dictionary, on a fresh
dictionary state, produces exactly the erased structural encoding. -/
theorem getTree_encoding (fuel : Nat) (pcd : PcDict) (F : RForest)
    (hag : agreesT pcd (RTree.node 1 F) = true)
    (hfuel : (RTree.node 1 F).height ≤ fuel) :
    getTree fuel rootEntry pcd 0 1 [] =
      .ok (eraseR (encTR (RTree.node 1 F) rootEntry 1),
        (RTree.node 1 F).size) := by
  have h := simT (RTree.node 1 F) rootEntry pcd fuel 0 1 0 [] [] hag rfl rfl rfl
    hfuel (by simp) (by simp) (Or.inl rfl)
  simp only [List.nil_append, List.drop_nil, List.append_nil] at h
  have harith : 1 + (RTree.node 1 F).size - 1 = (RTree.node 1 F).size := by
    omega
  rw [harith] at h
  exact h

/-- The same traversal started on the dictionary state left over by a
previous complete run on the same input: every stale entry is overwritten in
place and the result is identical. -/
theorem getTree_encoding_stale (fuel : Nat) (pcd : PcDict) (F : RForest)
    (hag : agreesT pcd (RTree.node 1 F) = true)
    (hfuel : (RTree.node 1 F).height ≤ fuel) :
    getTree fuel rootEntry pcd 0 1 (encTR (RTree.node 1 F) rootEntry 1) =
      .ok (eraseR (encTR (RTree.node 1 F) rootEntry 1),
        (RTree.node 1 F).size) := by
  have hkeys : (encTR (RTree.node 1 F) rootEntry 1).map Prod.fst =
      List.range' 1 (1 + F.sizeF) :=
    encTR_keys (RTree.node 1 F) rootEntry 1
  have hlen : (encTR (RTree.node 1 F) rootEntry 1).length =
      (RTree.node 1 F).size := by
    have := congrArg List.length hkeys
    simpa using this
  have h := simT (RTree.node 1 F) rootEntry pcd fuel 0 1
    (1 + F.sizeF) [] (encTR (RTree.node 1 F) rootEntry 1) hag rfl rfl rfl
    hfuel (by simp) hkeys (Or.inr (le_refl _))
  simp only [List.nil_append] at h
  have hdrop : (encTR (RTree.node 1 F) rootEntry 1).drop
      (RTree.node 1 F).size = [] := by
    rw [← hlen]
    exact List.drop_length _
  rw [hdrop] at h
  have harith2 : 1 + (RTree.node 1 F).size - 1 = (RTree.node 1 F).size := by
    omega
  rw [harith2] at h
  simpa using h

/-- The full pipeline on a valid edge set: `__get_tree_df` returns exactly the
structural encoding of the represented tree (and leaves the shared traversal
dictionary holding that encoding). -/
theorem getTreeDfSt_encoding (fuel : Nat) (edges : List (Nat × Nat))
    (pcd : PcDict) (F : RForest)
    (hpc : getParentChildDict edges = .ok pcd)
    (hag : agreesT pcd (RTree.node 1 F) = true)
    (hF : 1 ≤ F.sizeF)
    (hfuel : (RTree.node 1 F).height ≤ fuel) :
    getTreeDfSt fuel [] edges =
      .ok ((encTR (RTree.node 1 F) rootEntry 1).map Prod.snd,
        encTR (RTree.node 1 F) rootEntry 1) :=
  getTreeDfSt_ok fuel [] edges pcd _ _ _ hpc
    (getTree_encoding fuel pcd F hag hfuel)
    (setRightTreeIds_encoding 1 F hF)

/-- The pipeline re-run with the dictionary state of a previous run on the
same input gives the identical result and state. -/
theorem getTreeDfSt_encoding_stale (fuel : Nat) (edges : List (Nat × Nat))
    (pcd : PcDict) (F : RForest)
    (hpc : getParentChildDict edges = .ok pcd)
    (hag : agreesT pcd (RTree.node 1 F) = true)
    (hF : 1 ≤ F.sizeF)
    (hfuel : (RTree.node 1 F).height ≤ fuel) :
    getTreeDfSt fuel (encTR (RTree.node 1 F) rootEntry 1) edges =
      .ok ((encTR (RTree.node 1 F) rootEntry 1).map Prod.snd,
        encTR (RTree.node 1 F) rootEntry 1) :=
  getTreeDfSt_ok fuel _ edges pcd _ _ _ hpc
    (getTree_encoding_stale fuel pcd F hag hfuel)
    (setRightTreeIds_encoding 1 F hF)

theorem getTreeDf_encoding (fuel : Nat) (edges : List (Nat × Nat))
    (pcd : PcDict) (F : RForest)
    (hpc : getParentChildDict edges = .ok pcd)
    (hag : agreesT pcd (RTree.node 1 F) = true)
    (hF : 1 ≤ F.sizeF)
    (hfuel : (RTree.node 1 F).height ≤ fuel) :
    getTreeDf fuel edges =
      .ok ((encTR (RTree.node 1 F) rootEntry 1).map Prod.snd) := by
  rw [getTreeDf, getTreeDfSt_encoding fuel edges pcd F hpc hag hF hfuel]
  rfl

/-! ### Consequences of the pipeline characterization -/

instance {e a : Type} [DecidableEq e] [DecidableEq a] :
    DecidableEq (Except e a) := fun x y =>
  match x, y with
  | .error x1, .error y1 =>
      if h : x1 = y1 then .isTrue (by rw [h])
      else .isFalse (by intro hc; injection hc with h2; exact h h2)
  | .error _, .ok _ => .isFalse (by intro hc; injection hc)
  | .ok _, .error _ => .isFalse (by intro hc; injection hc)
  | .ok x1, .ok y1 =>
      if h : x1 = y1 then .isTrue (by rw [h])
      else .isFalse (by intro hc; injection hc with h2; exact h h2)

/-- A structurally recursive restatement of `getTree` (the children loop as a
monadic fold), definitionally reducible on closed inputs; proven equal to
`getTree` below and used to evaluate the pipeline at concrete edge sets. -/
def getTreeE : Nat → TreeEntry → PcDict → Nat → Nat → TreeMap →
    Except EncError (TreeMap × Nat)
  | 0, _, _, _, _, _ => .error .fuelExhausted
  | Nat.succ f, te, pcd, level, tree_id, tree =>
      (pcGet pcd te.tax_id).foldlM
        (fun acc c =>
          getTreeE f
            (mkEntry (acc.snd + 1) (some te.tree_id) c (level + 1)
              (!(pcMem pcd c)))
            pcd (level + 1) (acc.snd + 1) acc.fst)
        (dictInsert tree te.tree_id te, tree_id)

theorem getTreeChildren_eq_fold (fuel : Nat) (children : List Nat) :
    ∀ (parent : TreeEntry) (pcd : PcDict) (level tid : Nat) (tree : TreeMap),
    getTreeChildren fuel children parent pcd level tid tree =
      children.foldlM
        (fun acc c =>
          getTree fuel
            (mkEntry (acc.snd + 1) (some parent.tree_id) c level
              (!(pcMem pcd c)))
            pcd level (acc.snd + 1) acc.fst)
        (tree, tid) := by
  induction children with
  | nil =>
      intro parent pcd level tid tree
      rw [getTreeChildren]
      rfl
  | cons c cs ih =>
      intro parent pcd level tid tree
      rw [getTreeChildren, List.foldlM_cons]
      cases h : getTree fuel
          (mkEntry (tid + 1) (some parent.tree_id) c level (!(pcMem pcd c)))
          pcd level (tid + 1) tree with
      | error er => simp only [bind, Except.bind]
      | ok p =>
          obtain ⟨tree2, tid2⟩ := p
          simp only [bind, Except.bind]
          exact ih parent pcd level tid2 tree2

theorem getTree_eq_getTreeE (fuel : Nat) :
    ∀ (te : TreeEntry) (pcd : PcDict) (level tid : Nat) (tree : TreeMap),
    getTree fuel te pcd level tid tree = getTreeE fuel te pcd level tid tree := by
  induction fuel with
  | zero =>
      intro te pcd level tid tree
      rw [getTree, getTreeE]
  | succ f ih =>
      intro te pcd level tid tree
      rw [getTree, getTreeE, getTreeChildren_eq_fold]
      simp only [ih]

/-- The pipeline with the traversal written via `getTreeE`, for evaluation at
concrete inputs. -/
theorem getTreeDfSt_eval (fuel : Nat) (st : TreeMap)
    (edges : List (Nat × Nat)) :
    getTreeDfSt fuel st edges =
      match getParentChildDict edges with
      | .error er => .error er
      | .ok pcd =>
          match getTreeE fuel rootEntry pcd 0 1 st with
          | .error er => .error er
          | .ok (tree, _n) =>
              match setRightTreeIds tree with
              | .error er => .error er
              | .ok tree2 => .ok (tree2.map Prod.snd, tree2) := by
  rw [getTreeDfSt]
  simp only [getTree_eq_getTreeE]

theorem encTR_length (S : RTree) (e : TreeEntry) (lvl : Nat) :
    (encTR S e lvl).length = S.size := by
  have h := congrArg List.length (encTR_keys S e lvl)
  simpa using h

theorem getParentChildDict_none (edges : List (Nat × Nat))
    (h : pcFind (groupByParent edges) 1 = none) :
    getParentChildDict edges = .error .keyError := by
  rw [getParentChildDict]
  simp only [h]

theorem getParentChildDict_not_mem (edges : List (Nat × Nat)) (cs : List Nat)
    (h : pcFind (groupByParent edges) 1 = some cs) (h2 : 1 ∉ cs) :
    getParentChildDict edges = .error .valueError := by
  rw [getParentChildDict]
  simp only [h]
  rw [if_neg h2]

/-- C5 (counterexample): the single-node edge set `[(1, 1)]` is a valid edge
set of N = 1 nodes (exactly one self-referencing root edge), yet the pipeline
raises — `max(tree_cp_dict)` over the empty child → parent dictionary — so the
root never receives the claimed right bound `N + 1 = 2`. -/
theorem c5_single_node_counterexample :
    getTreeDf 10 [(1, 1)] = .error .maxOfEmpty := by
  rw [getTreeDf, getTreeDfSt_eval]
  rfl

/-- C5 (amended): once the tree has at least one non-root node, the first
output entry is the root (`tree_id = 1`, `tax_id = 1`) and its
`right_tree_id` is the node count of the output plus one. -/
theorem c5_root_right_bound (fuel : Nat) (edges : List (Nat × Nat))
    (pcd : PcDict) (F : RForest)
    (hpc : getParentChildDict edges = .ok pcd)
    (hag : agreesT pcd (RTree.node 1 F) = true)
    (hF : 1 ≤ F.sizeF)
    (hfuel : (RTree.node 1 F).height ≤ fuel) :
    ∃ out e, getTreeDf fuel edges = .ok out ∧ out.head? = some e ∧
      e.tree_id = 1 ∧ e.tax_id = 1 ∧
      e.right_tree_id = some (out.length + 1) := by
  refine ⟨_, { rootEntry with right_tree_id := some (rootEntry.tree_id + 1 + F.sizeF) },
    getTreeDf_encoding fuel edges pcd F hpc hag hF hfuel, ?_, rfl, rfl, ?_⟩
  · rw [encTR]
    rfl
  · rw [List.length_map, encTR_length]
    show some (1 + 1 + F.sizeF) = some ((RTree.node 1 F).size + 1)
    rw [RTree.size]
    congr 1
    omega

/-- C5 (witness): the two-node edge set `[(1,1),(2,1)]` satisfies every
hypothesis, and the root entry gets right bound `2 + 1 = 3`. -/
theorem c5_root_right_bound_witness :
    getParentChildDict [(1, 1), (2, 1)] = .ok [(1, [2])] ∧
    agreesT [(1, [2])] (RTree.node 1 (.cons (.node 2 .nil) .nil)) = true ∧
    1 ≤ (RForest.cons (.node 2 .nil) .nil).sizeF ∧
    (RTree.node 1 (.cons (.node 2 .nil) .nil)).height ≤ 10 ∧
    (∃ out e, getTreeDf 10 [(1, 1), (2, 1)] = .ok out ∧ out.head? = some e ∧
      e.tree_id = 1 ∧ e.tax_id = 1 ∧
      e.right_tree_id = some (out.length + 1)) :=
  ⟨by decide, by decide, by decide, by decide,
    c5_root_right_bound 10 [(1, 1), (2, 1)] [(1, [2])]
      (.cons (.node 2 .nil) .nil) (by decide) (by decide) (by decide)
      (by decide)⟩

/-! ### Levels assigned by the traversal -/

mutual

/-- The level stamps the traversal writes into a subtree whose root is
stamped `lvl`: the root's children get `lvl`... no — the root itself is
stamped `lvl` and each child one more. -/
def lvlT : RTree → Nat → List Nat
  | .node _ f, lvl => lvl :: lvlF f (lvl + 1)

/-- Forest version of `lvlT`: every root of the forest is stamped `lvl`. -/
def lvlF : RForest → Nat → List Nat
  | .nil, _ => []
  | .cons c f, lvl => lvlT c lvl ++ lvlF f lvl

end

theorem lvlT_eq (c : RTree) (lvl : Nat) :
    lvlT c lvl = lvl :: lvlF c.children (lvl + 1) := by
  cases c with
  | node t f => rfl

mutual

theorem encTR_levels : ∀ (S : RTree) (e : TreeEntry) (lvl : Nat),
    (encTR S e lvl).map (fun p => p.snd.level) = e.level :: lvlF S.children lvl
  | .node t f, e, lvl => by
      rw [encTR, List.map_cons, encFR_levels f e.tree_id lvl e.tree_id]
      rfl

theorem encFR_levels : ∀ (f : RForest) (pid lvl lastId : Nat),
    (encFR f pid lvl lastId).map (fun p => p.snd.level) = lvlF f lvl
  | .nil, _, _, _ => rfl
  | .cons c f, pid, lvl, lastId => by
      rw [encFR, List.map_append, encTR_levels c _ (lvl + 1),
        encFR_levels f pid lvl (lastId + c.size), lvlF, lvlT_eq c lvl]
      rfl

end

/-- C4 (counterexample): on `[(1,1),(2,1)]` the child of the root is encoded
with level 1, not the claimed 2 — `__get_tree` starts its `level` parameter at
0 (not at the root entry's level 1) and increments before the loop. -/
theorem c4_root_child_level_counterexample :
    (getTreeDf 10 [(1, 1), (2, 1)]).map (List.map TreeEntry.level) =
      .ok [1, 1] := by
  rw [getTreeDf, getTreeDfSt_eval]
  rfl

/-- C4 (amended): the root gets level 1, every child of the root also gets
level 1, and each deeper node gets its parent's level plus one — exactly the
stamp sequence `1 :: lvlF F 1`. -/
theorem c4_levels (fuel : Nat) (edges : List (Nat × Nat))
    (pcd : PcDict) (F : RForest)
    (hpc : getParentChildDict edges = .ok pcd)
    (hag : agreesT pcd (RTree.node 1 F) = true)
    (hF : 1 ≤ F.sizeF)
    (hfuel : (RTree.node 1 F).height ≤ fuel) :
    ∃ out, getTreeDf fuel edges = .ok out ∧
      out.map TreeEntry.level = 1 :: lvlF F 1 := by
  refine ⟨_, getTreeDf_encoding fuel edges pcd F hpc hag hF hfuel, ?_⟩
  rw [List.map_map]
  exact encTR_levels (RTree.node 1 F) rootEntry 1

/-- C4 (witness): on the chain 1 → 2 → 3 the encoded levels are `[1, 1, 2]`. -/
theorem c4_levels_witness :
    getParentChildDict [(1, 1), (2, 1), (3, 2)] = .ok [(1, [2]), (2, [3])] ∧
    agreesT [(1, [2]), (2, [3])]
      (RTree.node 1 (.cons (.node 2 (.cons (.node 3 .nil) .nil)) .nil)) = true ∧
    1 ≤ (RForest.cons (.node 2 (.cons (.node 3 .nil) .nil)) .nil).sizeF ∧
    (RTree.node 1 (.cons (.node 2 (.cons (.node 3 .nil) .nil)) .nil)).height ≤ 10 ∧
    (∃ out, getTreeDf 10 [(1, 1), (2, 1), (3, 2)] = .ok out ∧
      out.map TreeEntry.level =
        1 :: lvlF (.cons (.node 2 (.cons (.node 3 .nil) .nil)) .nil) 1) :=
  ⟨by decide, by decide, by decide, by decide,
    c4_levels 10 [(1, 1), (2, 1), (3, 2)] [(1, [2]), (2, [3])]
      (.cons (.node 2 (.cons (.node 3 .nil) .nil)) .nil)
      (by decide) (by decide) (by decide) (by decide)⟩

/-! ### A cycle reachable from the root: the traversal never returns

`getTree` has a single failure mode (running out of call nesting), every
member of a cycle of the child dictionary starts a traversal that never
returns, and divergence propagates from a child up to any node with a child
path to it — together: a cycle reachable from the root makes the whole
encoding pass recurse without bound, for any call budget. -/

theorem getTree_error_fuel (fuel : Nat) : ∀ (e : TreeEntry) (pcd : PcDict)
    (lv tid : Nat) (tr : TreeMap) (er : EncError),
    getTree fuel e pcd lv tid tr = .error er → er = .fuelExhausted := by
  induction fuel with
  | zero =>
      intro e pcd lv tid tr er h
      rw [getTree] at h
      injection h with h2
      exact h2.symm
  | succ f ih =>
      intro e pcd lv tid tr er h
      rw [getTree] at h
      have hch : ∀ (children : List Nat) (tid2 : Nat) (tr2 : TreeMap),
          getTreeChildren f children e pcd (lv + 1) tid2 tr2 = .error er →
          er = .fuelExhausted := by
        intro children
        induction children with
        | nil =>
            intro tid2 tr2 hc
            rw [getTreeChildren] at hc
            exact Except.noConfusion hc
        | cons d ds ihd =>
            intro tid2 tr2 hc
            rw [getTreeChildren] at hc
            split at hc
            · injection hc with h2
              rw [← h2]
              exact ih _ _ _ _ _ _ (by assumption)
            · exact ihd _ _ hc
      exact hch _ _ _ h

/-- The traversal started at a node with tax id `t` never returns, whatever
the call budget, level, id counter and dictionary state. -/
def divergesAt (pcd : PcDict) (t : Nat) : Prop :=
  ∀ (fuel : Nat) (e : TreeEntry) (lv tid : Nat) (tr : TreeMap),
    e.tax_id = t → getTree fuel e pcd lv tid tr = .error .fuelExhausted

theorem cycle_set_divergesAt (pcd : PcDict) (C : List Nat)
    (hcyc : ∀ t ∈ C, ∃ c ∈ pcGet pcd t, c ∈ C) :
    ∀ t ∈ C, divergesAt pcd t := by
  have main : ∀ (fuel : Nat) (e : TreeEntry) (lv tid : Nat) (tr : TreeMap),
      e.tax_id ∈ C → getTree fuel e pcd lv tid tr = .error .fuelExhausted := by
    intro fuel
    induction fuel with
    | zero =>
        intro e lv tid tr hm
        rw [getTree]
    | succ f ih =>
        intro e lv tid tr hm
        rw [getTree]
        obtain ⟨c, hcin, hcC⟩ := hcyc e.tax_id hm
        have hloop : ∀ (children : List Nat), c ∈ children →
            ∀ (tid2 : Nat) (tr2 : TreeMap),
            getTreeChildren f children e pcd (lv + 1) tid2 tr2 =
              .error .fuelExhausted := by
          intro children
          induction children with
          | nil =>
              intro hcm
              exact absurd hcm (List.not_mem_nil c)
          | cons d ds ihd =>
              intro hcm tid2 tr2
              rw [getTreeChildren]
              rcases List.mem_cons.mp hcm with hc1 | hc1
              · subst hc1
                rw [ih _ _ _ _ (by simp only [mkEntry_tax]; exact hcC)]
              · cases hg : getTree f (mkEntry (tid2 + 1) (some e.tree_id) d
                    (lv + 1) (!(pcMem pcd d))) pcd (lv + 1) (tid2 + 1) tr2 with
                | error er =>
                    have he : er = .fuelExhausted :=
                      getTree_error_fuel f _ _ _ _ _ _ hg
                    rw [he]
                | ok p =>
                    obtain ⟨tr3, tid3⟩ := p
                    exact ihd hc1 tid3 tr3
        exact hloop _ hcin tid (dictInsert tr e.tree_id e)
  intro t ht fuel e lv tid tr htax
  exact main fuel e lv tid tr (by rw [htax]; exact ht)

theorem diverge_step (pcd : PcDict) (t c : Nat) (hc : c ∈ pcGet pcd t)
    (hdiv : divergesAt pcd c) : divergesAt pcd t := by
  intro fuel
  cases fuel with
  | zero =>
      intro e lv tid tr ht
      rw [getTree]
  | succ f =>
      intro e lv tid tr ht
      rw [getTree, ht]
      have hloop : ∀ (children : List Nat), c ∈ children →
          ∀ (tid2 : Nat) (tr2 : TreeMap),
          getTreeChildren f children e pcd (lv + 1) tid2 tr2 =
            .error .fuelExhausted := by
        intro children
        induction children with
        | nil =>
            intro hcm
            exact absurd hcm (List.not_mem_nil c)
        | cons d ds ihd =>
            intro hcm tid2 tr2
            rw [getTreeChildren]
            rcases List.mem_cons.mp hcm with hc1 | hc1
            · subst hc1
              rw [hdiv f _ _ _ _ (by simp only [mkEntry_tax])]
            · cases hg : getTree f (mkEntry (tid2 + 1) (some e.tree_id) d
                  (lv + 1) (!(pcMem pcd d))) pcd (lv + 1) (tid2 + 1) tr2 with
              | error er =>
                  have he : er = .fuelExhausted :=
                    getTree_error_fuel f _ _ _ _ _ _ hg
                  rw [he]
              | ok p =>
                  obtain ⟨tr3, tid3⟩ := p
                  exact ihd hc1 tid3 tr3
      exact hloop _ hc tid (dictInsert tr e.tree_id e)

theorem divergesAt_of_path (pcd : PcDict) : ∀ (path : List Nat) (t : Nat),
    List.Chain (fun x y => y ∈ pcGet pcd x) t path →
    divergesAt pcd (path.getLastD t) → divergesAt pcd t := by
  intro path
  induction path with
  | nil =>
      intro t hch hdiv
      exact hdiv
  | cons p ps ih =>
      intro t hch hdiv
      rw [List.chain_cons] at hch
      refine diverge_step pcd t p hch.1 (ih p hch.2 ?_)
      rw [List.getLastD_cons] at hdiv
      exact hdiv

/-- C3 (counterexample): the edge set `[(1,1),(2,1),(3,99)]` has a dangling
parent reference (node 3's parent 99 matches no node), yet the import succeeds
and silently drops node 3 — the output holds exactly the taxa 1 and 2. -/
theorem c3_dangling_counterexample :
    (getTreeDf 10 [(1, 1), (2, 1), (3, 99)]).map (List.map TreeEntry.tax_id) =
      .ok [1, 2] := by
  rw [getTreeDf, getTreeDfSt_eval]
  rfl

/-- C3 (amended): a missing root is fatal before any write — `KeyError` when
the grouping has no entry for parent 1, `ValueError` when that entry lacks
child 1 (second conjunct); a cycle of the child dictionary reachable from the
root by child edges is never detected — the recursion descends without bound,
exhausting every call budget, so the import is aborted by stack exhaustion
during traversal rather than by pre-traversal validation (third conjunct,
for every such cycle `C` and child path from the root into it); but a
dangling parent reference is NOT rejected: whenever the dictionary agrees
with a tree `T` on `T`'s own nodes the import succeeds and outputs exactly
`T`'s taxa, silently dropping any edges hanging from parents outside `T`
(first conjunct). -/
theorem c3_validation (fuel : Nat) (edges : List (Nat × Nat))
    (pcd : PcDict) (F : RForest)
    (hpc : getParentChildDict edges = .ok pcd)
    (hag : agreesT pcd (RTree.node 1 F) = true)
    (hF : 1 ≤ F.sizeF)
    (hfuel : (RTree.node 1 F).height ≤ fuel) :
    (∃ out, getTreeDf fuel edges = .ok out ∧
        out.map TreeEntry.tax_id = (RTree.node 1 F).taxList) ∧
    (∀ (fl : Nat) (st : TreeMap) (edges2 : List (Nat × Nat)),
        1 ∉ pcGet (groupByParent edges2) 1 →
        getTreeDfSt fl st edges2 = .error .keyError ∨
        getTreeDfSt fl st edges2 = .error .valueError) ∧
    (∀ (fl : Nat) (st : TreeMap) (edges2 : List (Nat × Nat)) (pcd2 : PcDict)
        (C path : List Nat),
        getParentChildDict edges2 = .ok pcd2 →
        (∀ t ∈ C, ∃ c ∈ pcGet pcd2 t, c ∈ C) →
        List.Chain (fun x y => y ∈ pcGet pcd2 x) 1 path →
        path.getLastD 1 ∈ C →
        getTreeDfSt fl st edges2 = .error .fuelExhausted) := by
  refine ⟨⟨_, getTreeDf_encoding fuel edges pcd F hpc hag hF hfuel, ?_⟩,
    ?_, ?_⟩
  · rw [List.map_map]
    exact encTR_tax (RTree.node 1 F) rootEntry 1 rfl
  · intro fl st edges2 h
    cases hf : pcFind (groupByParent edges2) 1 with
    | none =>
        exact Or.inl (getTreeDfSt_err_pc fl st edges2 .keyError
          (getParentChildDict_none edges2 hf))
    | some cs =>
        have h2 : 1 ∉ cs := by
          rw [pcGet, hf] at h
          simpa using h
        exact Or.inr (getTreeDfSt_err_pc fl st edges2 .valueError
          (getParentChildDict_not_mem edges2 cs hf h2))
  · intro fl st edges2 pcd2 C path hpc2 hcyc hchain hlast
    have hdiv1 : divergesAt pcd2 1 :=
      divergesAt_of_path pcd2 path 1 hchain
        (cycle_set_divergesAt pcd2 C hcyc _ hlast)
    rw [getTreeDfSt]
    simp only [hpc2]
    rw [hdiv1 fl rootEntry 0 1 st rfl]

/-- C3 (witness): the dangling edge set `[(1,1),(2,1),(3,99)]` itself
satisfies the hypotheses with `T` the two-node tree 1 → 2 — making concrete
that the dangling node 3 is silently dropped on a successful import. -/
theorem c3_validation_witness :
    getParentChildDict [(1, 1), (2, 1), (3, 99)] =
      .ok [(1, [2]), (99, [3])] ∧
    agreesT [(1, [2]), (99, [3])] (RTree.node 1 (.cons (.node 2 .nil) .nil)) =
      true ∧
    1 ≤ (RForest.cons (.node 2 .nil) .nil).sizeF ∧
    (RTree.node 1 (.cons (.node 2 .nil) .nil)).height ≤ 10 ∧
    ((∃ out, getTreeDf 10 [(1, 1), (2, 1), (3, 99)] = .ok out ∧
        out.map TreeEntry.tax_id =
          (RTree.node 1 (.cons (.node 2 .nil) .nil)).taxList) ∧
      (∀ (fl : Nat) (st : TreeMap) (edges2 : List (Nat × Nat)),
        1 ∉ pcGet (groupByParent edges2) 1 →
        getTreeDfSt fl st edges2 = .error .keyError ∨
        getTreeDfSt fl st edges2 = .error .valueError) ∧
      (∀ (fl : Nat) (st : TreeMap) (edges2 : List (Nat × Nat)) (pcd2 : PcDict)
        (C path : List Nat),
        getParentChildDict edges2 = .ok pcd2 →
        (∀ t ∈ C, ∃ c ∈ pcGet pcd2 t, c ∈ C) →
        List.Chain (fun x y => y ∈ pcGet pcd2 x) 1 path →
        path.getLastD 1 ∈ C →
        getTreeDfSt fl st edges2 = .error .fuelExhausted)) :=
  ⟨by decide, by decide, by decide, by decide,
    c3_validation 10 [(1, 1), (2, 1), (3, 99)] [(1, [2]), (99, [3])]
      (.cons (.node 2 .nil) .nil) (by decide) (by decide) (by decide)
      (by decide)⟩

/-- C10: external id 1 is hard-coded as the root — the traversal's start
entry has `tax_id = 1` (and `tree_id = 1`), and whenever the parent → children
grouping of the input has no entry for parent 1 containing child 1, the
pipeline raises (`KeyError` or `ValueError`) instead of returning an
encoding, on any traversal dictionary state. -/
theorem c10_hardcoded_root (fuel : Nat) (st : TreeMap)
    (edges : List (Nat × Nat))
    (h : 1 ∉ pcGet (groupByParent edges) 1) :
    rootEntry.tax_id = 1 ∧ rootEntry.tree_id = 1 ∧
      ∃ er, getTreeDfSt fuel st edges = .error er := by
  refine ⟨rfl, rfl, ?_⟩
  cases hf : pcFind (groupByParent edges) 1 with
  | none =>
      exact ⟨.keyError, getTreeDfSt_err_pc fuel st edges .keyError
        (getParentChildDict_none edges hf)⟩
  | some cs =>
      have h2 : 1 ∉ cs := by
        rw [pcGet, hf] at h
        simpa using h
      exact ⟨.valueError, getTreeDfSt_err_pc fuel st edges .valueError
        (getParentChildDict_not_mem edges cs hf h2)⟩

/-- C10 (witness): `[(2, 2)]` — a self-referencing root edge on id 2 instead
of id 1 — is rejected. -/
theorem c10_hardcoded_root_witness :
    1 ∉ pcGet (groupByParent [(2, 2)]) 1 ∧
      (rootEntry.tax_id = 1 ∧ rootEntry.tree_id = 1 ∧
        ∃ er, getTreeDfSt 5 [] [(2, 2)] = .error er) :=
  ⟨by decide, c10_hardcoded_root 5 [] [(2, 2)] (by decide)⟩

/-- C7: for both node search endpoints the returned `count` is the length of
the full unpaginated query — identical across any two limit/offset choices —
while `results` is the paginated fetch of `min limit (total - offset)` rows. -/
theorem c7_count_unpaginated (db : Db) (taxId limit offset l2 o2 : Nat)
    (onlyLeafs : Bool) :
    (searchSiblingsNodes db taxId limit offset).count
        = (siblingsQuery db taxId).length ∧
    (searchSiblingsNodes db taxId limit offset).count
        = (searchSiblingsNodes db taxId l2 o2).count ∧
    (searchSiblingsNodes db taxId limit offset).results.length
        = min limit ((siblingsQuery db taxId).length - offset) ∧
    (searchDescendentNodes db taxId onlyLeafs limit offset).count
        = (descendentQuery db taxId onlyLeafs).length ∧
    (searchDescendentNodes db taxId onlyLeafs limit offset).count
        = (searchDescendentNodes db taxId onlyLeafs l2 o2).count ∧
    (searchDescendentNodes db taxId onlyLeafs limit offset).results.length
        = min limit ((descendentQuery db taxId onlyLeafs).length - offset) := by
  refine ⟨rfl, rfl, ?_, rfl, rfl, ?_⟩ <;>
    simp [searchSiblingsNodes, searchDescendentNodes]

/-- C2: on the chain 1 → 2 → 3 the leaf 3 has no right sibling, so its right
bound must flow down from its parent: `DbImporter.__set_right_tree_ids`
assigns it `4`, but `DbManager.set_right_tree_ids` — whose loop also requires
`not e.is_leaf` — skips the leaf and leaves its `right_tree_id` as `None`,
breaking the guarantee that every node ends the pass with a defined right
bound greater than its own tree id. -/
theorem c2_leaf_right_bound_divergence :
    (((getTree 10 rootEntry [(1, [2]), (2, [3])] 0 1 []).map Prod.fst).bind
          setRightTreeIds).toOption.bind
        (fun t2 => (mapFind t2 3).map TreeEntry.right_tree_id) =
      some (some 4) ∧
    (((getTree 10 rootEntry [(1, [2]), (2, [3])] 0 1 []).map Prod.fst).bind
          setRightTreeIdsM).toOption.bind
        (fun t2 => (mapFind t2 3).map TreeEntry.right_tree_id) =
      some none := by
  rw [getTree_eq_getTreeE]
  exact ⟨rfl, rfl⟩

/-- C8 (counterexample): `__get_tree`'s `tree={}` default is one shared
mutable dictionary per process — running the encoder on a three-node input
and then on a two-node input returns stale state from the first run (an extra
entry and a wrong root bound), differing from a fresh run on the two-node
input. -/
theorem c8_shared_state_counterexample :
    ((getTreeDfSt 10 [] [(1, 1), (2, 1), (3, 1)]).bind
        (fun r => getTreeDfSt 10 r.snd [(1, 1), (2, 1)])) ≠
      getTreeDfSt 10 [] [(1, 1), (2, 1)] := by
  simp only [getTreeDfSt_eval]
  decide

/-- C8 (amended): the encoder is not reentrant in general, but re-running it
on the SAME edge set is idempotent: the second run overwrites every stale
entry of the shared dictionary in place and returns the identical output and
state. -/
theorem c8_rerun_same_input (fuel : Nat) (edges : List (Nat × Nat))
    (pcd : PcDict) (F : RForest)
    (hpc : getParentChildDict edges = .ok pcd)
    (hag : agreesT pcd (RTree.node 1 F) = true)
    (hF : 1 ≤ F.sizeF)
    (hfuel : (RTree.node 1 F).height ≤ fuel) :
    ∃ out s, getTreeDfSt fuel [] edges = .ok (out, s) ∧
      getTreeDfSt fuel s edges = .ok (out, s) :=
  ⟨_, _, getTreeDfSt_encoding fuel edges pcd F hpc hag hF hfuel,
    getTreeDfSt_encoding_stale fuel edges pcd F hpc hag hF hfuel⟩

/-- C8 (witness): on the two-node edge set the rerun through the leftover
state reproduces the first run's result. -/
theorem c8_rerun_same_input_witness :
    getParentChildDict [(1, 1), (2, 1)] = .ok [(1, [2])] ∧
    agreesT [(1, [2])] (RTree.node 1 (.cons (.node 2 .nil) .nil)) = true ∧
    1 ≤ (RForest.cons (.node 2 .nil) .nil).sizeF ∧
    (RTree.node 1 (.cons (.node 2 .nil) .nil)).height ≤ 10 ∧
    (∃ out s, getTreeDfSt 10 [] [(1, 1), (2, 1)] = .ok (out, s) ∧
      getTreeDfSt 10 s [(1, 1), (2, 1)] = .ok (out, s)) :=
  ⟨by decide, by decide, by decide, by decide,
    c8_rerun_same_input 10 [(1, 1), (2, 1)] [(1, [2])]
      (.cons (.node 2 .nil) .nil) (by decide) (by decide) (by decide)
      (by decide)⟩

/-! ### Call depth of the traversal along a chain -/

/-- The parent → children dictionary of the chain 1 → 2 → ⋯ → n + 1. -/
def chainPcd (n : Nat) : PcDict :=
  (List.range' 1 n).map (fun k => (k, [k + 1]))

theorem pcFind_chain (m : Nat) : ∀ (a k : Nat), a ≤ k → k < a + m →
    pcFind ((List.range' a m).map (fun j => (j, [j + 1]))) k = some [k + 1] := by
  induction m with
  | zero => intro a k h1 h2; omega
  | succ m ih =>
      intro a k h1 h2
      rw [List.range'_succ, List.map_cons, pcFind]
      by_cases hak : a = k
      · rw [if_pos hak, hak]
      · rw [if_neg hak]
        exact ih (a + 1) k (by omega) (by omega)

theorem chain_getTree (fuel : Nat) : ∀ (n : Nat) (e : TreeEntry)
    (lv tid : Nat) (tr : TreeMap), 1 ≤ e.tax_id → e.tax_id + fuel ≤ n + 1 →
    getTree fuel e (chainPcd n) lv tid tr = .error .fuelExhausted := by
  induction fuel with
  | zero =>
      intro n e lv tid tr h1 h2
      rw [getTree]
  | succ f ih =>
      intro n e lv tid tr h1 h2
      rw [getTree]
      have hg : pcGet (chainPcd n) e.tax_id = [e.tax_id + 1] := by
        rw [pcGet, chainPcd, pcFind_chain n 1 e.tax_id h1 (by omega)]
        rfl
      rw [hg, getTreeChildren,
        ih n _ _ _ _ (by simp only [mkEntry_tax]; omega)
          (by simp only [mkEntry_tax]; omega)]

/-- C9 (counterexample): with call budget 2 the three-node chain
1 → 2 → 3 runs out of call nesting, while budget 3 completes it — the
encoder's nesting grows with tree depth, as call recursion does and an
iterative explicit-stack loop would not. -/
theorem c9_stack_counterexample :
    getTreeDf 2 [(1, 1), (2, 1), (3, 2)] = .error .fuelExhausted ∧
    getTreeDf 3 [(1, 1), (2, 1), (3, 2)] ≠ .error .fuelExhausted := by
  simp only [getTreeDf, getTreeDfSt_eval]
  decide

/-- C9 (amended): the depth-first encoder is call recursion, not an explicit
work-stack loop: it completes whenever the call budget covers the tree
height, independently of node count (first conjunct), while for every budget
`D` the chain of depth `D + 1` exhausts it (second conjunct). -/
theorem c9_recursion_depth (fuel : Nat) (edges : List (Nat × Nat))
    (pcd : PcDict) (F : RForest)
    (hpc : getParentChildDict edges = .ok pcd)
    (hag : agreesT pcd (RTree.node 1 F) = true)
    (hF : 1 ≤ F.sizeF)
    (hfuel : (RTree.node 1 F).height ≤ fuel) :
    (∃ out, getTreeDf fuel edges = .ok out ∧
        out.length = (RTree.node 1 F).size) ∧
    (∀ D : Nat, getTree D rootEntry (chainPcd D) 0 1 [] =
        .error .fuelExhausted) := by
  constructor
  · refine ⟨_, getTreeDf_encoding fuel edges pcd F hpc hag hF hfuel, ?_⟩
    rw [List.length_map, encTR_length]
  · intro D
    exact chain_getTree D D rootEntry 0 1 []
      (by decide) (by show 1 + D ≤ D + 1; omega)

/-- C9 (witness): the two-node edge set completes within its height's call
budget. -/
theorem c9_recursion_depth_witness :
    getParentChildDict [(1, 1), (2, 1)] = .ok [(1, [2])] ∧
    agreesT [(1, [2])] (RTree.node 1 (.cons (.node 2 .nil) .nil)) = true ∧
    1 ≤ (RForest.cons (.node 2 .nil) .nil).sizeF ∧
    (RTree.node 1 (.cons (.node 2 .nil) .nil)).height ≤ 2 ∧
    ((∃ out, getTreeDf 2 [(1, 1), (2, 1)] = .ok out ∧
        out.length = (RTree.node 1 (.cons (.node 2 .nil) .nil)).size) ∧
      (∀ D : Nat, getTree D rootEntry (chainPcd D) 0 1 [] =
        .error .fuelExhausted)) :=
  ⟨by decide, by decide, by decide, by decide,
    c9_recursion_depth 2 [(1, 1), (2, 1)] [(1, [2])]
      (.cons (.node 2 .nil) .nil) (by decide) (by decide) (by decide)
      (by decide)⟩

/-- Three stored sibling nodes under parent 1, of which only taxa 1 and 2
carry a scientific name. -/
def dbC6 : Db :=
  ⟨[⟨1, 1, 1, some 4, false⟩, ⟨2, 1, 2, some 3, true⟩,
      ⟨3, 1, 3, some 4, true⟩],
    [⟨1, "alpha", "scientific name"⟩, ⟨2, "beta", "scientific name"⟩]⟩

/-- C6 (counterexample): node 3 shares parent 1 with the queried node 2, but
the siblings query inner-joins `Name` on name class "scientific name", so the
nameless sibling 3 is dropped: the query returns taxa 1 and 2 only, not the
full sibling set 1, 2, 3. -/
theorem c6_missing_name_counterexample :
    (siblingsQuery dbC6 2).map ResultRow.tax_id = [1, 2] ∧
    (dbC6.nodes.filter (fun n => n.parent_tax_id == 1)).map NodeRow.tax_id =
      [1, 2, 3] :=
  ⟨rfl, rfl⟩

/-- C6 (amended): when the queried tax id resolves to a stored row `n0`, a
tax id appears in the siblings query exactly when some node carries it with
`n0`'s parent AND some name row gives it a scientific name — the sibling set
is intersected with name ownership, rather than returned in full. -/
theorem c6_siblings_membership (db : Db) (taxId t : Nat) (n0 : NodeRow)
    (h : db.nodes.find? (fun n => n.tax_id == taxId) = some n0) :
    (∃ r ∈ siblingsQuery db taxId, r.tax_id = t) ↔
      ∃ n ∈ db.nodes, n.tax_id = t ∧ n.parent_tax_id = n0.parent_tax_id ∧
        ∃ m ∈ db.names, m.tax_id = t ∧ m.name_class = "scientific name" := by
  rw [siblingsQuery, h]
  constructor
  · rintro ⟨r, hr, ht⟩
    rw [List.mem_flatMap] at hr
    obtain ⟨n, hn, hr2⟩ := hr
    rw [List.mem_filter] at hn
    rw [List.mem_map] at hr2
    obtain ⟨m, hm, hrm⟩ := hr2
    rw [List.mem_filter] at hm
    subst hrm
    have htax : n.tax_id = t := ht
    have hmt : (m.tax_id == n.tax_id && m.name_class == "scientific name") =
        true := hm.2
    rw [Bool.and_eq_true] at hmt
    refine ⟨n, hn.1, htax, ?_, m, hm.1, ?_, ?_⟩
    · have hp := hn.2
      simpa using hp
    · have h1 : m.tax_id = n.tax_id := by simpa using hmt.1
      rw [h1, htax]
    · simpa using hmt.2
  · rintro ⟨n, hn, ht, hp, m, hm, hmt, hmc⟩
    refine ⟨⟨n.tax_id, n.parent_tax_id, m.name_txt⟩, ?_, ht⟩
    rw [List.mem_flatMap]
    refine ⟨n, ?_, ?_⟩
    · rw [List.mem_filter]
      exact ⟨hn, by simp [hp]⟩
    · rw [List.mem_map]
      refine ⟨m, ?_, rfl⟩
      rw [List.mem_filter]
      refine ⟨hm, ?_⟩
      simp [hmt, ht, hmc]

/-- C6 (witness): in `dbC6`, tax 1 is returned for the query on tax 2, and the
membership characterization agrees. -/
theorem c6_siblings_membership_witness :
    dbC6.nodes.find? (fun n => n.tax_id == 2) = some ⟨2, 1, 2, some 3, true⟩ ∧
      ((∃ r ∈ siblingsQuery dbC6 2, r.tax_id = 1) ↔
        ∃ n ∈ dbC6.nodes, n.tax_id = 1 ∧
          n.parent_tax_id = (⟨2, 1, 2, some 3, true⟩ : NodeRow).parent_tax_id ∧
          ∃ m ∈ dbC6.names, m.tax_id = 1 ∧
            m.name_class = "scientific name") :=
  ⟨rfl, c6_siblings_membership dbC6 2 1 ⟨2, 1, 2, some 3, true⟩ rfl⟩

/-! ### Locating a node of the encoding: position, interval and subtree -/

theorem map_nodup_inj {α β : Type} (f : α → β) (l : List α)
    (h : (l.map f).Nodup) : ∀ p ∈ l, ∀ q ∈ l, f p = f q → p = q := by
  induction l with
  | nil =>
      intro p hp
      exact absurd hp (List.not_mem_nil p)
  | cons a l ih =>
      rw [List.map_cons, List.nodup_cons] at h
      intro p hp q hq hfe
      rcases List.mem_cons.mp hp with hp1 | hp1 <;>
        rcases List.mem_cons.mp hq with hq1 | hq1
      · rw [hp1, hq1]
      · subst hp1
        exact absurd (by rw [hfe]; exact List.mem_map_of_mem f hq1) h.1
      · subst hq1
        exact absurd (by rw [← hfe]; exact List.mem_map_of_mem f hp1) h.1
      · exact ih h.2 p hp1 q hq1 hfe

mutual

theorem encTR_mem_has : ∀ (S : RTree) (e : TreeEntry) (lvl : Nat),
    e.tax_id = S.tax → ∀ (k : Nat) (x : TreeEntry), (k, x) ∈ encTR S e lvl →
    ∃ S', hasNodeT S e.tree_id k S' ∧ x.tree_id = k ∧ x.tax_id = S'.tax ∧
      x.right_tree_id = some (k + S'.size)
  | .node t f, e, lvl, htax, k, x, hmem => by
      rw [encTR] at hmem
      rcases List.mem_cons.mp hmem with h | h
      · rw [Prod.mk.injEq] at h
        obtain ⟨hk, hx⟩ := h
        subst hk
        subst hx
        refine ⟨.node t f, ?_, rfl, htax, ?_⟩
        · rw [hasNodeT]
          exact Or.inl ⟨rfl, rfl⟩
        · rw [RTree.size]
          show some (e.tree_id + 1 + f.sizeF) = some (e.tree_id + (1 + f.sizeF))
          congr 1
          omega
      · obtain ⟨S', hpos, hti, hta, hr⟩ :=
          encFR_mem_has f e.tree_id lvl e.tree_id k x h
        exact ⟨S', by rw [hasNodeT]; exact Or.inr hpos, hti, hta, hr⟩

theorem encFR_mem_has : ∀ (f : RForest) (pid lvl lastId : Nat)
    (k : Nat) (x : TreeEntry), (k, x) ∈ encFR f pid lvl lastId →
    ∃ S', hasNodeF f lastId k S' ∧ x.tree_id = k ∧ x.tax_id = S'.tax ∧
      x.right_tree_id = some (k + S'.size)
  | .nil, _, _, _, k, x, hmem => by
      rw [encFR] at hmem
      exact absurd hmem (List.not_mem_nil _)
  | .cons c f, pid, lvl, lastId, k, x, hmem => by
      rw [encFR] at hmem
      rcases List.mem_append.mp hmem with h | h
      · obtain ⟨S', hpos, hti, hta, hr⟩ :=
          encTR_mem_has c (mkEntry (lastId + 1) (some pid) c.tax lvl c.isLeafT)
            (lvl + 1) rfl k x h
        exact ⟨S', by rw [hasNodeF]; exact Or.inl hpos, hti, hta, hr⟩
      · obtain ⟨S', hpos, hti, hta, hr⟩ :=
          encFR_mem_has f pid lvl (lastId + c.size) k x h
        exact ⟨S', by rw [hasNodeF]; exact Or.inr hpos, hti, hta, hr⟩

end

mutual

theorem hasNodeT_tax_mem : ∀ (S : RTree) (myId q : Nat) (S' : RTree),
    hasNodeT S myId q S' → S'.tax ∈ S.taxList
  | .node t f, myId, q, S', h => by
      rw [hasNodeT] at h
      rw [RTree.taxList]
      rcases h with ⟨_, hS⟩ | h
      · subst hS
        exact List.mem_cons_self _ _
      · exact List.mem_cons_of_mem _ (hasNodeF_tax_mem f myId q S' h)

theorem hasNodeF_tax_mem : ∀ (f : RForest) (lastId q : Nat) (S' : RTree),
    hasNodeF f lastId q S' → S'.tax ∈ f.taxListF
  | .nil, _, _, _, h => by
      rw [hasNodeF] at h
      exact h.elim
  | .cons c f, lastId, q, S', h => by
      rw [hasNodeF] at h
      rw [RForest.taxListF]
      rcases h with h | h
      · exact List.mem_append_left _ (hasNodeT_tax_mem c (lastId + 1) q S' h)
      · exact List.mem_append_right _
          (hasNodeF_tax_mem f (lastId + c.size) q S' h)

end

mutual

theorem findSubT_eq_none : ∀ (S : RTree) (a : Nat), a ∉ S.taxList →
    findSubT S a = none
  | .node t f, a, h => by
      rw [RTree.taxList, List.mem_cons] at h
      push_neg at h
      rw [findSubT, if_neg (fun he => h.1 he.symm)]
      exact findSubF_eq_none f a h.2

theorem findSubF_eq_none : ∀ (f : RForest) (a : Nat), a ∉ f.taxListF →
    findSubF f a = none
  | .nil, a, h => rfl
  | .cons c f, a, h => by
      rw [RForest.taxListF, List.mem_append] at h
      push_neg at h
      rw [findSubF, findSubT_eq_none c a h.1]
      exact findSubF_eq_none f a h.2

end

mutual

theorem findSubT_of_hasNode : ∀ (S : RTree) (myId q : Nat) (S' : RTree),
    S.taxList.Nodup → hasNodeT S myId q S' → findSubT S S'.tax = some S'
  | .node t f, myId, q, S', hnd, h => by
      rw [hasNodeT] at h
      rw [RTree.taxList, List.nodup_cons] at hnd
      rw [findSubT]
      rcases h with ⟨_, hS⟩ | h
      · subst hS
        have ht : (RTree.node t f).tax = t := rfl
        rw [ht, if_pos rfl]
      · have hmem := hasNodeF_tax_mem f myId q S' h
        have hne : ¬ t = S'.tax := fun he => hnd.1 (by rw [he]; exact hmem)
        rw [if_neg hne]
        exact findSubF_of_hasNode f myId q S' hnd.2 h

theorem findSubF_of_hasNode : ∀ (f : RForest) (lastId q : Nat) (S' : RTree),
    f.taxListF.Nodup → hasNodeF f lastId q S' → findSubF f S'.tax = some S'
  | .nil, _, _, _, _, h => by
      rw [hasNodeF] at h
      exact h.elim
  | .cons c f, lastId, q, S', hnd, h => by
      rw [hasNodeF] at h
      rw [RForest.taxListF, List.nodup_append] at hnd
      rw [findSubF]
      rcases h with h | h
      · rw [findSubT_of_hasNode c (lastId + 1) q S' hnd.1 h]
      · have hmem := hasNodeF_tax_mem f (lastId + c.size) q S' h
        have hnc : S'.tax ∉ c.taxList := fun hin => hnd.2.2 hin hmem
        rw [findSubT_eq_none c S'.tax hnc]
        exact findSubF_of_hasNode f (lastId + c.size) q S' hnd.2.1 h

end

mutual

theorem encTR_chunk : ∀ (S : RTree) (e : TreeEntry) (lvl k : Nat)
    (S' : RTree), e.tax_id = S.tax → hasNodeT S e.tree_id k S' →
    ∃ pre e' lvl' post,
      encTR S e lvl = pre ++ encTR S' e' lvl' ++ post ∧
      e'.tree_id = k ∧ e'.tax_id = S'.tax
  | .node t f, e, lvl, k, S', htax, h => by
      rw [hasNodeT] at h
      rcases h with ⟨hk, hS⟩ | h
      · subst hS
        exact ⟨[], e, lvl, [],
          by rw [List.nil_append, List.append_nil], hk.symm, htax⟩
      · obtain ⟨pre, e', lvl', post, heq, h1, h2⟩ :=
          encFR_chunk f e.tree_id lvl e.tree_id k S' h
        refine ⟨(e.tree_id,
            { e with right_tree_id := some (e.tree_id + 1 + f.sizeF) }) :: pre,
          e', lvl', post, ?_, h1, h2⟩
        rw [encTR, heq]
        rfl

theorem encFR_chunk : ∀ (f : RForest) (pid lvl lastId k : Nat) (S' : RTree),
    hasNodeF f lastId k S' →
    ∃ pre e' lvl' post,
      encFR f pid lvl lastId = pre ++ encTR S' e' lvl' ++ post ∧
      e'.tree_id = k ∧ e'.tax_id = S'.tax
  | .nil, _, _, _, _, _, h => by
      rw [hasNodeF] at h
      exact h.elim
  | .cons c f, pid, lvl, lastId, k, S', h => by
      rw [hasNodeF] at h
      rcases h with h | h
      · obtain ⟨pre, e', lvl', post, heq, h1, h2⟩ :=
          encTR_chunk c (mkEntry (lastId + 1) (some pid) c.tax lvl c.isLeafT)
            (lvl + 1) k S' rfl h
        refine ⟨pre, e', lvl', post ++ encFR f pid lvl (lastId + c.size),
          ?_, h1, h2⟩
        rw [encFR, heq]
        simp [List.append_assoc]
      · obtain ⟨pre, e', lvl', post, heq, h1, h2⟩ :=
          encFR_chunk f pid lvl (lastId + c.size) k S' h
        refine ⟨encTR c (mkEntry (lastId + 1) (some pid) c.tax lvl c.isLeafT)
            (lvl + 1) ++ pre, e', lvl', post, ?_, h1, h2⟩
        rw [encFR, heq]
        simp [List.append_assoc]

end

/-- C1: on a valid edge set (with pairwise distinct tax ids) the half-open
interval test of the descendant query agrees, for every pair of output
entries, with reachability by child edges in the represented tree — the
invariant `B is a descendant of A iff A.tree_id ≤ B.tree_id < A.right_tree_id`
holds for every node, leaves included. -/
theorem c1_descendant_interval (fuel : Nat) (edges : List (Nat × Nat))
    (pcd : PcDict) (F : RForest)
    (hpc : getParentChildDict edges = .ok pcd)
    (hag : agreesT pcd (RTree.node 1 F) = true)
    (hF : 1 ≤ F.sizeF)
    (hfuel : (RTree.node 1 F).height ≤ fuel)
    (hnd : (RTree.node 1 F).taxList.Nodup) :
    ∃ out, getTreeDf fuel edges = .ok out ∧
      ∀ A ∈ out, ∀ B ∈ out,
        isDescendantInclusive A B =
          reachableFrom (RTree.node 1 F) A.tax_id B.tax_id := by
  refine ⟨_, getTreeDf_encoding fuel edges pcd F hpc hag hF hfuel, ?_⟩
  intro A hA B hB
  obtain ⟨⟨kA, A'⟩, hpA, hAe⟩ := List.mem_map.mp hA
  obtain ⟨⟨kB, B'⟩, hpB, hBe⟩ := List.mem_map.mp hB
  have hAe' : A' = A := hAe
  have hBe' : B' = B := hBe
  subst hAe'
  subst hBe'
  obtain ⟨SA, hposA, htidA, htaxA, hrA⟩ :=
    encTR_mem_has (RTree.node 1 F) rootEntry 1 rfl kA A' hpA
  obtain ⟨SB, hposB, htidB, htaxB, hrB⟩ :=
    encTR_mem_has (RTree.node 1 F) rootEntry 1 rfl kB B' hpB
  have hfind : findSubT (RTree.node 1 F) A'.tax_id = some SA := by
    rw [htaxA]
    exact findSubT_of_hasNode (RTree.node 1 F) rootEntry.tree_id kA SA hnd hposA
  have hL : isDescendantInclusive A' B' =
      (decide (kA ≤ kB) && decide (kB < kA + SA.size)) := by
    rw [isDescendantInclusive, hrA, htidA, htidB]
  have hR : reachableFrom (RTree.node 1 F) A'.tax_id B'.tax_id =
      SA.taxList.contains B'.tax_id := by
    rw [reachableFrom, hfind]
  obtain ⟨pre, eA, lvlA, post, hchunk, heid, hetax⟩ :=
    encTR_chunk (RTree.node 1 F) rootEntry 1 kA SA rfl hposA
  have hkeysA : (encTR SA eA lvlA).map Prod.fst = List.range' kA SA.size := by
    rw [encTR_keys, heid]
  have hkeyND : ((encTR (RTree.node 1 F) rootEntry 1).map Prod.fst).Nodup := by
    rw [encTR_keys]
    exact List.nodup_range' rootEntry.tree_id (RTree.node 1 F).size 1
      (by norm_num)
  have htaxeq : (encTR (RTree.node 1 F) rootEntry 1).map
      (fun p => p.snd.tax_id) = (RTree.node 1 F).taxList :=
    encTR_tax (RTree.node 1 F) rootEntry 1 rfl
  have htaxND : ((encTR (RTree.node 1 F) rootEntry 1).map
      (fun p => p.snd.tax_id)).Nodup := by
    rw [htaxeq]
    exact hnd
  have hSAtax : (encTR SA eA lvlA).map (fun p => p.snd.tax_id) = SA.taxList :=
    encTR_tax SA eA lvlA hetax
  have hiff : (kA ≤ kB ∧ kB < kA + SA.size) ↔ B'.tax_id ∈ SA.taxList := by
    constructor
    · rintro ⟨h1, h2⟩
      have hkin : kB ∈ (encTR SA eA lvlA).map Prod.fst := by
        rw [hkeysA, List.mem_range'_1]
        exact ⟨h1, h2⟩
      obtain ⟨⟨k2, x2⟩, hx2, hk2⟩ := List.mem_map.mp hkin
      have hk2' : k2 = kB := hk2
      subst hk2'
      have hx2' : (k2, x2) ∈ encTR (RTree.node 1 F) rootEntry 1 := by
        rw [hchunk]
        exact List.mem_append_left _ (List.mem_append_right _ hx2)
      have hxB : x2 = B' := by
        have hpe := map_nodup_inj Prod.fst
          (encTR (RTree.node 1 F) rootEntry 1) hkeyND
          (k2, x2) hx2' (k2, B') hpB rfl
        exact congrArg Prod.snd hpe
      rw [← hSAtax, ← hxB]
      exact List.mem_map_of_mem _ hx2
    · intro hmem
      rw [← hSAtax] at hmem
      obtain ⟨⟨k2, x2⟩, hx2, htx⟩ := List.mem_map.mp hmem
      have hx2' : (k2, x2) ∈ encTR (RTree.node 1 F) rootEntry 1 := by
        rw [hchunk]
        exact List.mem_append_left _ (List.mem_append_right _ hx2)
      have heqp : (k2, x2) = (kB, B') :=
        map_nodup_inj (fun p => p.snd.tax_id)
          (encTR (RTree.node 1 F) rootEntry 1) htaxND
          (k2, x2) hx2' (kB, B') hpB htx
      have hkk : k2 = kB := congrArg Prod.fst heqp
      subst hkk
      have hin : k2 ∈ (encTR SA eA lvlA).map Prod.fst :=
        List.mem_map_of_mem Prod.fst hx2
      rw [hkeysA, List.mem_range'_1] at hin
      exact hin
  have hbe : ∀ (x y : Bool), (x = true ↔ y = true) → x = y := by decide
  rw [hL, hR]
  apply hbe
  rw [Bool.and_eq_true, decide_eq_true_eq, decide_eq_true_eq]
  simpa using hiff

/-- C1 (witness): the five-node example tree — root 1 with children 2, 3 and
grandchildren 4, 5 under 2 — satisfies every hypothesis, so its encoded
intervals agree with reachability for all 25 node pairs. -/
theorem c1_descendant_interval_witness :
    getParentChildDict [(1, 1), (2, 1), (3, 1), (4, 2), (5, 2)] =
      .ok [(1, [2, 3]), (2, [4, 5])] ∧
    agreesT [(1, [2, 3]), (2, [4, 5])]
      (RTree.node 1 (.cons (.node 2 (.cons (.node 4 .nil)
        (.cons (.node 5 .nil) .nil))) (.cons (.node 3 .nil) .nil))) = true ∧
    1 ≤ (RForest.cons (.node 2 (.cons (.node 4 .nil)
      (.cons (.node 5 .nil) .nil))) (.cons (.node 3 .nil) .nil)).sizeF ∧
    (RTree.node 1 (.cons (.node 2 (.cons (.node 4 .nil)
      (.cons (.node 5 .nil) .nil))) (.cons (.node 3 .nil) .nil))).height ≤ 10 ∧
    (RTree.node 1 (.cons (.node 2 (.cons (.node 4 .nil)
      (.cons (.node 5 .nil) .nil)))
        (.cons (.node 3 .nil) .nil))).taxList.Nodup ∧
    (∃ out, getTreeDf 10 [(1, 1), (2, 1), (3, 1), (4, 2), (5, 2)] = .ok out ∧
      ∀ A ∈ out, ∀ B ∈ out,
        isDescendantInclusive A B =
          reachableFrom (RTree.node 1 (.cons (.node 2 (.cons (.node 4 .nil)
            (.cons (.node 5 .nil) .nil))) (.cons (.node 3 .nil) .nil)))
            A.tax_id B.tax_id) :=
  ⟨by decide, by decide, by decide, by decide, by decide,
    c1_descendant_interval 10 [(1, 1), (2, 1), (3, 1), (4, 2), (5, 2)]
      [(1, [2, 3]), (2, [4, 5])]
      (.cons (.node 2 (.cons (.node 4 .nil) (.cons (.node 5 .nil) .nil)))
        (.cons (.node 3 .nil) .nil))
      (by decide) (by decide) (by decide) (by decide) (by decide)⟩

end TaxTree
